import Mathlib

/-!
AliceVision: triplet listing and the MSURF descriptor.

A shallow embedding of

* `aliceVision::graph::List_Triplets`, exercised by
  `src/aliceVision/graph/triplet_test.cpp` (its header `Triplet.hpp` is not among the sources, so
  the operation is modelled from the written specification, section 4.2);
* `aliceVision::feature::ComputeMSURFDescriptor` and `gaussian` of
  `src/aliceVision/feature/akaze/descriptorMSURF.hpp`.
-/

namespace aliceVision
namespace graph

/-- A `lemon::ListGraph` as the tests build it: `addNode` hands out the identities
`0, 1, ..., numNodes - 1` in insertion order and `addEdge(u, v)` appends the pair `(u, v)`,
endpoints in the order given, to `edges`. -/
structure Graph where
  numNodes : Nat
  edges : List (Nat × Nat)
deriving DecidableEq, Repr

/-- The triple of node identities `(i, j, k)` read by the tests as `.i`, `.j`, `.k`. -/
structure Triplet where
  i : Nat
  j : Nat
  k : Nat
deriving DecidableEq, Repr

/-- The empty graph on `n` nodes (`n` calls of `addNode`). -/
def Graph.withNodes (n : Nat) : Graph := ⟨n, []⟩

/-- The call `g.addEdge(u, v)`. -/
def Graph.addEdge (g : Graph) (u v : Nat) : Graph := ⟨g.numNodes, g.edges ++ [(u, v)]⟩

/-- Two inserted pairs denote the same undirected edge. -/
def sameEdge (e f : Nat × Nat) : Prop :=
  (e.1 = f.1 ∧ e.2 = f.2) ∨ (e.1 = f.2 ∧ e.2 = f.1)

instance (e f : Nat × Nat) : Decidable (sameEdge e f) := by
  unfold sameEdge; infer_instance

/-- The undirected edge `{u, v}` is present in `g`. -/
def Graph.hasEdge (g : Graph) (u v : Nat) : Prop :=
  (u, v) ∈ g.edges ∨ (v, u) ∈ g.edges

instance (g : Graph) (u v : Nat) : Decidable (g.hasEdge u v) := by
  unfold Graph.hasEdge; infer_instance

/-- The graph is an undirected simple graph in the sense of section 3 of the specification:
every endpoint is a node, there is no self-loop, and no undirected edge was inserted twice. -/
def Graph.Simple (g : Graph) : Prop :=
  (∀ e ∈ g.edges, e.1 < g.numNodes ∧ e.2 < g.numNodes ∧ e.1 ≠ e.2) ∧
    g.edges.Pairwise (fun e f => ¬ sameEdge e f)

instance (g : Graph) : Decidable g.Simple := by
  unfold Graph.Simple; infer_instance

/-- Modelled from the spec: a set kept as a list, as the edge set and the adjacency sets of
sections 3 and 4.2 are: every element of `l` once, at the place of its first occurrence. -/
def firstOccurrences {α : Type} [DecidableEq α] (l : List α) : List α :=
  l.reverse.dedup.reverse

/-- An inserted pair with its endpoints put in ascending order: the undirected edge it denotes. -/
def canonical (e : Nat × Nat) : Nat × Nat := (min e.1 e.2, max e.1 e.2)

/-- Modelled from the spec: the edges of the graph of section 3, "a set of undirected edges, each
an unordered pair" with "no multi-edges": every inserted pair in ascending order, an edge that
was inserted more than once taken once. `Triplet.hpp`, which would enumerate them, is absent from
the sources. -/
def undirectedEdges (g : Graph) : List (Nat × Nat) :=
  firstOccurrences (g.edges.map canonical)

/-- Modelled from the spec: the adjacency-set view of section 4.2 ("mapping each node to the set
of its neighbors"), which `Triplet.hpp` (absent from the sources) would build. The set is kept as
a duplicate-free list. -/
def neighbors (g : Graph) (u : Nat) : List Nat :=
  firstOccurrences (g.edges.filterMap (fun e =>
    if e.1 = u then some e.2 else if e.2 = u then some e.1 else none))

/-- Modelled from the spec: for an edge `{u, v}` with `u < v`, "the intersection of
`neighbors(u)` and `neighbors(v)` restricted to identities greater than `v`" (section 4.2; the
code of `Triplet.hpp` is absent from the sources). -/
def forwardNeighbors (g : Graph) (u v : Nat) : List Nat :=
  ((neighbors g u).filter (fun w => decide (w ∈ neighbors g v))).filter (fun w => decide (v < w))

/-- Modelled from the spec: the triplets contributed by one edge, oriented so that
`u < v`: "each member `w` of that intersection yields triangle `(u, v, w)`" (section 4.2; the code
of `Triplet.hpp` is absent from the sources). -/
def edgeTriplets (g : Graph) (e : Nat × Nat) : List Triplet :=
  let u := min e.1 e.2
  let v := max e.1 e.2
  if u < v then (forwardNeighbors g u v).map (fun w => Triplet.mk u v w) else []

/-- Modelled from the spec: `List_Triplets(g, vec_triplets)` of `Triplet.hpp`, which is absent
from the sources; section 4.2 gives the contract `findTriplets(graph) -> (found, triplets)` and
the forward enumeration "for each edge `{u, v}`" of the graph. The output vector starts empty, as
in every test. -/
def List_Triplets (g : Graph) : Bool × List Triplet :=
  let vec_triplets := (undirectedEdges g).flatMap (edgeTriplets g)
  (!vec_triplets.isEmpty, vec_triplets)

/-- The triple `t` is ascending and its three edges are present in `g`: it is the canonical form
of a triangle of `g`. -/
def isTriangle (g : Graph) (t : Triplet) : Prop :=
  t.i < t.j ∧ t.j < t.k ∧ g.hasEdge t.i t.j ∧ g.hasEdge t.j t.k ∧ g.hasEdge t.i t.k

instance (g : Graph) (t : Triplet) : Decidable (isTriangle g t) := by
  unfold isTriangle; infer_instance

/-- All triangles of `g`, one per 3-subset of node identities, found by brute force over the
ascending triples of nodes. -/
def triangles (g : Graph) : Finset Triplet :=
  ((Finset.range g.numNodes ×ˢ Finset.range g.numNodes ×ˢ Finset.range g.numNodes).image
    (fun p => Triplet.mk p.1 p.2.1 p.2.2)).filter (fun t => isTriangle g t)

/-- Test graph `a_b_c` of `test_no_triplet`. -/
def pathGraph : Graph :=
  (((Graph.withNodes 3).addEdge 0 1).addEdge 1 2)

/-- First graph of `test_one_triplet`: the triangle `a, b, c`. -/
def triangleGraph : Graph :=
  ((((Graph.withNodes 3).addEdge 0 1).addEdge 0 2).addEdge 1 2)

/-- Second graph of `test_one_triplet`: a tail `a_b` attached to the triangle `b, c, d`. -/
def tailedTriangle : Graph :=
  ((((Graph.withNodes 4).addEdge 0 1).addEdge 1 2).addEdge 1 3).addEdge 2 3

/-- Graph of `test_for_triplet`: the complete graph on 4 nodes, edges in the test's order. -/
def completeFour : Graph :=
  ((((((Graph.withNodes 4).addEdge 0 1).addEdge 0 2).addEdge 0 3).addEdge 2 3).addEdge 1 3).addEdge
    2 1

/-- The graph `h` has the nodes of `g` and the same undirected edges with the same multiplicities:
it differs from `g` at most in the order of the `addEdge` calls and in the order of the two
endpoints within a call. -/
def Graph.sameEdges (g h : Graph) : Prop :=
  g.numNodes = h.numNodes ∧ (g.edges.map canonical).Perm (h.edges.map canonical)

instance (g h : Graph) : Decidable (g.sameEdges h) := by
  unfold Graph.sameEdges; infer_instance

/-- Second graph of `test_two_triplet` (two triangles joined at `b`), edges in the test's
order. -/
def bowTie : Graph :=
  ((((((Graph.withNodes 5).addEdge 0 1).addEdge 1 2).addEdge 2 4).addEdge 4 1).addEdge 1 3).addEdge
    3 0

/-- The graph `bowTie` with its edges inserted in another order and the endpoints of three of
them swapped. -/
def bowTieShuffled : Graph :=
  ((((((Graph.withNodes 5).addEdge 0 3).addEdge 1 4).addEdge 1 0).addEdge 4 2).addEdge 3 1).addEdge
    2 1

end graph

namespace feature

/-- The numeric functions the descriptor takes from `MathTrait<Real>` (`MathTrait.hpp` is not among
the sources, so they are parameters of the embedding); `round` is `MathTrait<float>::round`, whose
result the code stores in an `int`. -/
structure MathTrait (R : Type) where
  exp : R → R
  cos : R → R
  sin : R → R
  abs : R → R
  round : R → Int

/-- The accessors `x()`, `y()`, `scale()` and `orientation()` of the keypoint `ipt`. -/
structure PointFeature (R : Type) where
  x : R
  y : R
  scale : R
  orientation : R

/-- The function `gaussian(x, y, sigma)`: `exp(-((x * x) + (y * y)) / (2 * sigma * sigma))`,
read over a field. Where `2 * sigma * sigma = 0` the float quotient is NaN or minus infinity, not
a real number, and the field reading says nothing of the code there; `gaussianChecked` follows
the same line with the division checked, and the two agree wherever `sigma` is not 0. -/
def gaussian {R : Type} [LinearOrderedField R] (M : MathTrait R) (x y sigma : R) : R :=
  M.exp ((-((x * x) + (y * y))) / ((2 : R) * sigma * sigma))

/-- The constant `sample_step`. -/
def sample_step : Int := 5

/-- The constant `pattern_size`. -/
def pattern_size : Int := 12

/-- The values read from the keypoint before the loops: `scale`, `xf`, `yf`, `co`, `si`. -/
structure Frame (R : Type) where
  scale : Int
  xf : R
  yf : R
  co : R
  si : R

/-- The four running sums `dx`, `dy`, `mdx`, `mdy` of one subregion. The field `points` is a
ghost log of the lattice indices `(k, l)` at which the body of the sample loops has run. -/
structure Sums (R : Type) where
  dx : R
  dy : R
  mdx : R
  mdy : R
  points : List (Int × Int)

/-- The body of the two sample loops for the lattice indices `(k, l)`: the sample position, the
first Gaussian weight, the two sampled derivatives rotated into the local frame, and the update
of the four running sums. `sampler img row col` is the call `sampler(img, row, col)`. -/
def sampleBody {R ImageT : Type} [LinearOrderedField R] (M : MathTrait R)
    (sampler : ImageT → R → R → R) (Lx Ly : ImageT) (F : Frame R) (xs ys : R) (k l : Int)
    (s : Sums R) : Sums R :=
  let sample_y := F.yf + (((l * F.scale : Int) : R) * F.co + ((k * F.scale : Int) : R) * F.si)
  let sample_x := F.xf + (((-l * F.scale : Int) : R) * F.si + ((k * F.scale : Int) : R) * F.co)
  let gauss_s1 := gaussian M (xs - sample_x) (ys - sample_y) ((2.5 : R) * (F.scale : R))
  let rx := sampler Lx sample_y sample_x
  let ry := sampler Ly sample_y sample_x
  let rry := gauss_s1 * (rx * F.co + ry * F.si)
  let rrx := gauss_s1 * (-rx * F.si + ry * F.co)
  { dx := s.dx + rrx
    dy := s.dy + rry
    mdx := s.mdx + M.abs rrx
    mdy := s.mdy + M.abs rry
    points := s.points ++ [(k, l)] }

/-- The loop `for (int k = lo; k < hi; ++k) body(k)` over a state of type `σ`. -/
def forLoop {σ : Type} (k hi : Int) (body : Int → σ → σ) (s : σ) : σ :=
  if k < hi then forLoop (k + 1) hi body (body k s) else s
termination_by (hi - k).toNat
decreasing_by omega

/-- One subregion with lattice origin `(i, j)`: the sums are reset, the centre `(xs, ys)` is
computed from `ky = i + sample_step` and `kx = j + sample_step`, and the two sample loops run over
`k` in `[i, i + 9)` and `l` in `[j, j + 9)`. -/
def subregionSums {R ImageT : Type} [LinearOrderedField R] (M : MathTrait R)
    (sampler : ImageT → R → R → R) (Lx Ly : ImageT) (F : Frame R) (i j : Int) : Sums R :=
  let ky := i + sample_step
  let kx := j + sample_step
  let xs := F.xf + (((-kx * F.scale : Int) : R) * F.si + ((ky * F.scale : Int) : R) * F.co)
  let ys := F.yf + (((kx * F.scale : Int) : R) * F.co + ((ky * F.scale : Int) : R) * F.si)
  forLoop i (i + 9)
    (fun k s => forLoop j (j + 9) (fun l s => sampleBody M sampler Lx Ly F xs ys k l s) s)
    ⟨0, 0, 0, 0, []⟩

/-- One visit of the body of the inner `while` loop, kept as a ghost record: the lattice origin
`(i, j)` after the `- 4` step, the grid coordinates `(cx, cy)`, the value of `dcount` on entry and
the lattice indices sampled. -/
structure Visit (R : Type) where
  i : Int
  j : Int
  cx : R
  cy : R
  dcount : Nat
  points : List (Int × Int)

/-- The output side of the loops: the 64 entries of `desc` and the counter `dcount`. The fields
`writes` (the indices stored to, in order) and `visits` are ghost logs. -/
structure Out (R : Type) where
  desc : Fin 64 → R
  dcount : Nat
  writes : List Nat
  visits : List (Visit R)

/-- The statement `desc[dcount++] = v`. The descriptor has 64 entries: a store at an index
outside `0..63` is undefined behaviour and yields `none`. -/
def Out.store {R : Type} (o : Out R) (v : R) : Option (Out R) :=
  if h : o.dcount < 64 then
    some { o with
      desc := Function.update o.desc ⟨o.dcount, h⟩ v
      dcount := o.dcount + 1
      writes := o.writes ++ [o.dcount] }
  else none

/-- The inner loop `while (j < pattern_size)` for a fixed row origin `i` and row coordinate `cx`:
`cy` and `j` are stepped, the subregion sums are computed and the four values weighted by the
second Gaussian are stored. The final `j` and `cy` are overwritten before their next use, so only
the output side is returned. -/
def innerLoop {R ImageT : Type} [LinearOrderedField R] (M : MathTrait R)
    (sampler : ImageT → R → R → R) (Lx Ly : ImageT) (F : Frame R) (i : Int) (cx : R)
    (j : Int) (cy : R) (out : Out R) : Option (Out R) :=
  if j < pattern_size then
    let cy1 := cy + 1
    let j1 := j - 4
    let s := subregionSums M sampler Lx Ly F i j1
    let gauss_s2 := gaussian M (cx - 2) (cy1 - 2) (1.5 : R)
    let out0 : Out R := { out with visits := out.visits ++ [⟨i, j1, cx, cy1, out.dcount, s.points⟩] }
    match (((out0.store (s.dx * gauss_s2)).bind (fun o => o.store (s.dy * gauss_s2))).bind
        (fun o => o.store (s.mdx * gauss_s2))).bind (fun o => o.store (s.mdy * gauss_s2)) with
    | none => none
    | some out1 => innerLoop M sampler Lx Ly F i cx (j1 + 9) cy1 out1
  else some out
termination_by (pattern_size - j).toNat
decreasing_by
  simp only [pattern_size] at *
  omega

/-- The outer loop `while (i < pattern_size)`: `i` and `cx` are stepped, `j` and `cy` are reset
to `-8` and `-0.5`, and the inner loop runs. -/
def outerLoop {R ImageT : Type} [LinearOrderedField R] (M : MathTrait R)
    (sampler : ImageT → R → R → R) (Lx Ly : ImageT) (F : Frame R) (i : Int) (cx : R)
    (out : Out R) : Option (Out R) :=
  if i < pattern_size then
    let i1 := i - 4
    let cx1 := cx + 1
    match innerLoop M sampler Lx Ly F i1 cx1 (-8) (-0.5 : R) out with
    | none => none
    | some out1 => outerLoop M sampler Lx Ly F (i1 + 9) cx1 out1
  else some out
termination_by (pattern_size - i).toNat
decreasing_by
  simp only [pattern_size] at *
  omega

/-- The values computed from the keypoint before the loops. `1 << id_octave` is read as
`2 ^ id_octave` (the shift is defined for `0 ≤ id_octave < 31`), and the `int` products such as
`kx * scale` are taken in the integers. -/
def keypointFrame {R : Type} [LinearOrderedField R] (M : MathTrait R) (id_octave : Nat)
    (ipt : PointFeature R) : Frame R :=
  let ratio : R := ((1 <<< id_octave : Nat) : R)
  let scale : Int := M.round (ipt.scale / ratio)
  let angle := ipt.orientation
  let yf := ipt.y / ratio
  let xf := ipt.x / ratio
  let co := M.cos angle
  let si := M.sin angle
  { scale := scale, xf := xf, yf := yf, co := co, si := si }

/-- The float overload of `ComputeMSURFDescriptor` up to the end of the two `while` loops, i.e.
before the normalisation: `i = -8`, `cx = -0.5`, `dcount = 0`, and `desc` with the contents the
caller passed in. `none` means that a store fell outside the descriptor. -/
def descriptorLoops {R ImageT : Type} [LinearOrderedField R] (M : MathTrait R)
    (sampler : ImageT → R → R → R) (Lx Ly : ImageT) (id_octave : Nat) (ipt : PointFeature R)
    (desc : Fin 64 → R) : Option (Out R) :=
  outerLoop M sampler Lx Ly (keypointFrame M id_octave ipt) (-8) (-0.5 : R) ⟨desc, 0, [], []⟩

/-- The value `squaredNorm()` of the 64-vector. -/
def squaredNorm {R : Type} [LinearOrderedField R] (v : Fin 64 → R) : R :=
  ∑ n : Fin 64, v n * v n

/-- The call `dataMap.normalize()` of the Eigen library (version 3.3 and later, which AliceVision
requires): `z = squaredNorm(); if (z > 0) derived() /= sqrt(z);`. The vector is divided by its
norm only under the guard `z > 0` and is left as it is otherwise. -/
def normalize {R : Type} [LinearOrderedField R] (sqrt : R → R) (v : Fin 64 → R) : Fin 64 → R :=
  let z := squaredNorm v
  if 0 < z then fun n => v n / sqrt z else v

/-- The float overload of `ComputeMSURFDescriptor`: the loops followed by the normalisation of the
64 entries. The result is the final content of `desc`. -/
def ComputeMSURFDescriptor {R ImageT : Type} [LinearOrderedField R] (M : MathTrait R)
    (sqrt : R → R) (sampler : ImageT → R → R → R) (Lx Ly : ImageT) (id_octave : Nat)
    (ipt : PointFeature R) (desc : Fin 64 → R) : Option (Fin 64 → R) :=
  (descriptorLoops M sampler Lx Ly id_octave ipt desc).map (fun o => normalize sqrt o.desc)

/-- The `Descriptor<unsigned char, 64>` overload: it declares the local `descFloat` (whose initial
content is the parameter `descFloat`), calls the float overload on it and returns. The result
pairs the final content of the 8-bit buffer `desc` with the final content of the local
`descFloat`; `none` means that the float overload hit undefined behaviour. -/
def ComputeMSURFDescriptorUChar {R ImageT : Type} [LinearOrderedField R] (M : MathTrait R)
    (sqrt : R → R) (sampler : ImageT → R → R → R) (Lx Ly : ImageT) (id_octave : Nat)
    (ipt : PointFeature R) (descFloat : Fin 64 → R) (desc : Fin 64 → Fin 256) :
    Option ((Fin 64 → Fin 256) × (Fin 64 → R)) :=
  match ComputeMSURFDescriptor M sqrt sampler Lx Ly id_octave ipt descFloat with
  | none => none
  | some descFloat1 => some (desc, descFloat1)

/-! ### Closed forms used to state what the loops compute -/

/-- The 9 x 9 lattice of sample indices `(k, l)` with `k` in `[i, i + 9)` and `l` in `[j, j + 9)`,
in the order of the two sample loops. -/
def lattice (i j : Int) : List (Int × Int) :=
  (List.range 9).flatMap (fun (a : Nat) => (List.range 9).map (fun (b : Nat) => (i + (a : Int), j + (b : Int))))

/-- The output side after four consecutive in-range stores of `a`, `b`, `c`, `d` and the ghost
record `v` of the visit: the closed form of four uses of `Out.store`. -/
def Out.stored4 {R : Type} (out : Out R) (v : Visit R) (a b c d : R) : Out R :=
  { desc := fun n =>
      if n.val = out.dcount + 3 then d
      else if n.val = out.dcount + 2 then c
      else if n.val = out.dcount + 1 then b
      else if n.val = out.dcount then a
      else out.desc n
    dcount := out.dcount + 4
    writes := out.writes ++ [out.dcount, out.dcount + 1, out.dcount + 2, out.dcount + 3]
    visits := out.visits ++ [v] }

/-- The output side after one pass through the body of the inner loop, for the lattice origin
`(i, j)` and the grid coordinates `(cx, cy)` in force inside the body. -/
def afterSubregion {R ImageT : Type} [LinearOrderedField R] (M : MathTrait R)
    (sampler : ImageT → R → R → R) (Lx Ly : ImageT) (F : Frame R) (i j : Int) (cx cy : R)
    (out : Out R) : Out R :=
  let s := subregionSums M sampler Lx Ly F i j
  let gauss_s2 := gaussian M (cx - 2) (cy - 2) (1.5 : R)
  out.stored4 ⟨i, j, cx, cy, out.dcount, s.points⟩
    (s.dx * gauss_s2) (s.dy * gauss_s2) (s.mdx * gauss_s2) (s.mdy * gauss_s2)

/-- The output side after one full run of the inner loop (four subregions) for the row with
lattice origin `i` and grid coordinate `cx`. -/
def afterRow {R ImageT : Type} [LinearOrderedField R] (M : MathTrait R)
    (sampler : ImageT → R → R → R) (Lx Ly : ImageT) (F : Frame R) (i : Int) (cx : R)
    (out : Out R) : Out R :=
  afterSubregion M sampler Lx Ly F i 3 cx (3.5 : R)
    (afterSubregion M sampler Lx Ly F i (-2) cx (2.5 : R)
      (afterSubregion M sampler Lx Ly F i (-7) cx (1.5 : R)
        (afterSubregion M sampler Lx Ly F i (-12) cx (0.5 : R) out)))

/-- The output side after the full run of the outer loop (four rows). -/
def afterGrid {R ImageT : Type} [LinearOrderedField R] (M : MathTrait R)
    (sampler : ImageT → R → R → R) (Lx Ly : ImageT) (F : Frame R) (out : Out R) : Out R :=
  afterRow M sampler Lx Ly F 3 (3.5 : R)
    (afterRow M sampler Lx Ly F (-2) (2.5 : R)
      (afterRow M sampler Lx Ly F (-7) (1.5 : R)
        (afterRow M sampler Lx Ly F (-12) (0.5 : R) out)))

/-! ### Named parts of the loop body, used to state the claims on the stored values -/

/-- The value `sample_x` computed in the sample loops for the lattice indices `(k, l)`. -/
def sampleX {R : Type} [LinearOrderedField R] (F : Frame R) (k l : Int) : R :=
  F.xf + (((-l * F.scale : Int) : R) * F.si + ((k * F.scale : Int) : R) * F.co)

/-- The value `sample_y` computed in the sample loops for the lattice indices `(k, l)`. -/
def sampleY {R : Type} [LinearOrderedField R] (F : Frame R) (k l : Int) : R :=
  F.yf + (((l * F.scale : Int) : R) * F.co + ((k * F.scale : Int) : R) * F.si)

/-- The value `xs` of the subregion with lattice origin `(i, j)`, from `ky = i + sample_step` and
`kx = j + sample_step`. -/
def centreX {R : Type} [LinearOrderedField R] (F : Frame R) (i j : Int) : R :=
  F.xf + (((-(j + sample_step) * F.scale : Int) : R) * F.si
    + (((i + sample_step) * F.scale : Int) : R) * F.co)

/-- The value `ys` of the subregion with lattice origin `(i, j)`, from `ky = i + sample_step` and
`kx = j + sample_step`. -/
def centreY {R : Type} [LinearOrderedField R] (F : Frame R) (i j : Int) : R :=
  F.yf + ((((j + sample_step) * F.scale : Int) : R) * F.co
    + (((i + sample_step) * F.scale : Int) : R) * F.si)

/-- The first Gaussian weight `gauss_s1` of the sample `(k, l)` in the subregion with lattice
origin `(i, j)`. -/
def firstGaussian {R : Type} [LinearOrderedField R] (M : MathTrait R) (F : Frame R)
    (i j k l : Int) : R :=
  gaussian M (centreX F i j - sampleX F k l) (centreY F i j - sampleY F k l)
    ((2.5 : R) * (F.scale : R))

/-- The entry `desc[idx]` read back after the loops; `none` outside `0..63`. -/
def Out.read {R : Type} (o : Out R) (idx : Nat) : Option R :=
  if h : idx < 64 then some (o.desc ⟨idx, h⟩) else none

/-- The four values a visit has stored, read back from `desc` at the visit's entry value of
`dcount` and the three indices after it. -/
def Out.slice {R : Type} (o : Out R) (v : Visit R) : List (Option R) :=
  [o.read v.dcount, o.read (v.dcount + 1), o.read (v.dcount + 2), o.read (v.dcount + 3)]

/-- The four values the body of the inner loop computes for a visit: the sums `dx`, `dy`, `mdx`,
`mdy` of the subregion, each times `gauss_s2 = gaussian(cx - 2, cy - 2, 1.5)`. -/
def visitValues {R ImageT : Type} [LinearOrderedField R] (M : MathTrait R)
    (sampler : ImageT → R → R → R) (Lx Ly : ImageT) (F : Frame R) (v : Visit R) :
    List (Option R) :=
  let s := subregionSums M sampler Lx Ly F v.i v.j
  let gauss_s2 := gaussian M (v.cx - 2) (v.cy - 2) (1.5 : R)
  [some (s.dx * gauss_s2), some (s.dy * gauss_s2), some (s.mdx * gauss_s2),
    some (s.mdy * gauss_s2)]

/-! ### The explicit double loop of the design notes -/

/-- The store `desc[idx] = v` at an explicit index. -/
def writeAt {R : Type} (desc : Fin 64 → R) (idx : Nat) (v : R) : Fin 64 → R :=
  fun n => if n.val = idx then v else desc n

/-- The subregion in grid row `r` and column `c` as the design notes (section 9 of the
specification) compute it: lattice origin `i = 5 r - 12`, `j = 5 c - 12`, grid coordinates
`cx = r + 0.5`, `cy = c + 0.5`, and the four weighted sums stored to the output slice
`4 (4 r + c) .. 4 (4 r + c) + 3`. -/
def explicitSubregion {R ImageT : Type} [LinearOrderedField R] (M : MathTrait R)
    (sampler : ImageT → R → R → R) (Lx Ly : ImageT) (F : Frame R) (r c : Nat)
    (desc : Fin 64 → R) : Fin 64 → R :=
  let i : Int := 5 * (r : Int) - 12
  let j : Int := 5 * (c : Int) - 12
  let cx : R := (r : R) + 0.5
  let cy : R := (c : R) + 0.5
  let s := subregionSums M sampler Lx Ly F i j
  let gauss_s2 := gaussian M (cx - 2) (cy - 2) (1.5 : R)
  let base := 4 * (4 * r + c)
  writeAt (writeAt (writeAt (writeAt desc base (s.dx * gauss_s2)) (base + 1) (s.dy * gauss_s2))
    (base + 2) (s.mdx * gauss_s2)) (base + 3) (s.mdy * gauss_s2)

/-- The explicit double loop over the subregion row `r` and column `c` in `0..3`, in row-major
order, that the design notes (section 9 of the specification) put in place of the index-stepping
`while` loops. -/
def explicitLoops {R ImageT : Type} [LinearOrderedField R] (M : MathTrait R)
    (sampler : ImageT → R → R → R) (Lx Ly : ImageT) (F : Frame R) (desc : Fin 64 → R) :
    Fin 64 → R :=
  (List.range 4).foldl (fun d r =>
    (List.range 4).foldl (fun d c => explicitSubregion M sampler Lx Ly F r c d) d) desc

/-- The descriptor computed with the explicit double loop, followed by the same
normalisation. -/
def explicitDescriptor {R ImageT : Type} [LinearOrderedField R] (M : MathTrait R)
    (sqrt : R → R) (sampler : ImageT → R → R → R) (Lx Ly : ImageT) (id_octave : Nat)
    (ipt : PointFeature R) (desc : Fin 64 → R) : Fin 64 → R :=
  normalize sqrt (explicitLoops M sampler Lx Ly (keypointFrame M id_octave ipt) desc)

/-- The index `4 t + c` of channel `c` (0: `dx`, 1: `dy`, 2: `mdx`, 3: `mdy`) of the subregion
visited as number `t`. -/
def slot (t : Fin 16) (c : Fin 4) : Fin 64 := ⟨4 * t.val + c.val, by omega⟩

/-! ### The same computation with the division checked

The definitions above read the arithmetic over a field, in which the quotient by zero is a
number. The only division of `ComputeMSURFDescriptor` whose divisor can vanish is the one in the
first Gaussian, `2 * sigma * sigma` with `sigma = 2.5 * scale`, when the keypoint scale rounds to
0 (`ratio` is a power of two and the normalisation is guarded). The definitions below follow the
same source lines with that division checked: a value is `some x` for the real number `x` and
`none` when it is not a real number (NaN), and every operation on `none` gives `none`. In
`ComputeMSURFDescriptor` a vanishing divisor comes with `x = y = 0`: at rounded scale 0 the
sample positions and the subregion centre are all the keypoint position. -/

/-- The function `gaussian` with its division checked. For `2 * sigma * sigma = 0` the float
quotient `-((x * x) + (y * y)) / 0` is NaN when `x * x + y * y = 0`, and the result is NaN; it is
minus infinity otherwise, and `exp` of minus infinity is 0. -/
def gaussianChecked {R : Type} [LinearOrderedField R] (M : MathTrait R) (x y sigma : R) :
    Option R :=
  if (2 : R) * sigma * sigma = 0 then
    if (x * x) + (y * y) = 0 then none else some 0
  else some (gaussian M x y sigma)

/-- The sum `a + b` of two values, NaN as soon as one of them is. -/
def addChecked {R : Type} [LinearOrderedField R] (a b : Option R) : Option R :=
  a.bind (fun x => b.map (fun y => x + y))

/-- The product `a * b` of two values, NaN as soon as one of them is. -/
def mulChecked {R : Type} [LinearOrderedField R] (a b : Option R) : Option R :=
  a.bind (fun x => b.map (fun y => x * y))

/-- The four running sums `dx`, `dy`, `mdx`, `mdy` as values that may be NaN. -/
structure SumsChecked (R : Type) where
  dx : Option R
  dy : Option R
  mdx : Option R
  mdy : Option R

/-- The body of the two sample loops, as `sampleBody`, with the first Gaussian checked. -/
def sampleBodyChecked {R ImageT : Type} [LinearOrderedField R] (M : MathTrait R)
    (sampler : ImageT → R → R → R) (Lx Ly : ImageT) (F : Frame R) (xs ys : R) (k l : Int)
    (s : SumsChecked R) : SumsChecked R :=
  let sample_y := F.yf + (((l * F.scale : Int) : R) * F.co + ((k * F.scale : Int) : R) * F.si)
  let sample_x := F.xf + (((-l * F.scale : Int) : R) * F.si + ((k * F.scale : Int) : R) * F.co)
  let gauss_s1 := gaussianChecked M (xs - sample_x) (ys - sample_y) ((2.5 : R) * (F.scale : R))
  let rx := sampler Lx sample_y sample_x
  let ry := sampler Ly sample_y sample_x
  let rry := mulChecked gauss_s1 (some (rx * F.co + ry * F.si))
  let rrx := mulChecked gauss_s1 (some (-rx * F.si + ry * F.co))
  { dx := addChecked s.dx rrx
    dy := addChecked s.dy rry
    mdx := addChecked s.mdx (rrx.map M.abs)
    mdy := addChecked s.mdy (rry.map M.abs) }

/-- One subregion with lattice origin `(i, j)`, as `subregionSums`, with the first Gaussian
checked. -/
def subregionSumsChecked {R ImageT : Type} [LinearOrderedField R] (M : MathTrait R)
    (sampler : ImageT → R → R → R) (Lx Ly : ImageT) (F : Frame R) (i j : Int) :
    SumsChecked R :=
  let ky := i + sample_step
  let kx := j + sample_step
  let xs := F.xf + (((-kx * F.scale : Int) : R) * F.si + ((ky * F.scale : Int) : R) * F.co)
  let ys := F.yf + (((kx * F.scale : Int) : R) * F.co + ((ky * F.scale : Int) : R) * F.si)
  forLoop i (i + 9)
    (fun k s => forLoop j (j + 9) (fun l s => sampleBodyChecked M sampler Lx Ly F xs ys k l s) s)
    ⟨some 0, some 0, some 0, some 0⟩

/-- The output side of the loops with entries that may be NaN: `desc` and `dcount`. -/
structure OutChecked (R : Type) where
  desc : Fin 64 → Option R
  dcount : Nat

/-- The statement `desc[dcount++] = v` for a value that may be NaN; `none` as a result means a
store outside `0..63`. -/
def OutChecked.store {R : Type} (o : OutChecked R) (v : Option R) : Option (OutChecked R) :=
  if h : o.dcount < 64 then
    some { desc := Function.update o.desc ⟨o.dcount, h⟩ v, dcount := o.dcount + 1 }
  else none

/-- The inner loop `while (j < pattern_size)`, as `innerLoop`, on values that may be NaN. -/
def innerLoopChecked {R ImageT : Type} [LinearOrderedField R] (M : MathTrait R)
    (sampler : ImageT → R → R → R) (Lx Ly : ImageT) (F : Frame R) (i : Int) (cx : R)
    (j : Int) (cy : R) (out : OutChecked R) : Option (OutChecked R) :=
  if j < pattern_size then
    let cy1 := cy + 1
    let j1 := j - 4
    let s := subregionSumsChecked M sampler Lx Ly F i j1
    let gauss_s2 := gaussianChecked M (cx - 2) (cy1 - 2) (1.5 : R)
    match (((out.store (mulChecked s.dx gauss_s2)).bind
        (fun o => o.store (mulChecked s.dy gauss_s2))).bind
        (fun o => o.store (mulChecked s.mdx gauss_s2))).bind
        (fun o => o.store (mulChecked s.mdy gauss_s2)) with
    | none => none
    | some out1 => innerLoopChecked M sampler Lx Ly F i cx (j1 + 9) cy1 out1
  else some out
termination_by (pattern_size - j).toNat
decreasing_by
  simp only [pattern_size] at *
  omega

/-- The outer loop `while (i < pattern_size)`, as `outerLoop`, on values that may be NaN. -/
def outerLoopChecked {R ImageT : Type} [LinearOrderedField R] (M : MathTrait R)
    (sampler : ImageT → R → R → R) (Lx Ly : ImageT) (F : Frame R) (i : Int) (cx : R)
    (out : OutChecked R) : Option (OutChecked R) :=
  if i < pattern_size then
    let i1 := i - 4
    let cx1 := cx + 1
    match innerLoopChecked M sampler Lx Ly F i1 cx1 (-8) (-0.5 : R) out with
    | none => none
    | some out1 => outerLoopChecked M sampler Lx Ly F (i1 + 9) cx1 out1
  else some out
termination_by (pattern_size - i).toNat
decreasing_by
  simp only [pattern_size] at *
  omega

/-- The float overload up to the end of the two `while` loops, as `descriptorLoops`, on values
that may be NaN. -/
def descriptorLoopsChecked {R ImageT : Type} [LinearOrderedField R] (M : MathTrait R)
    (sampler : ImageT → R → R → R) (Lx Ly : ImageT) (id_octave : Nat) (ipt : PointFeature R)
    (desc : Fin 64 → Option R) : Option (OutChecked R) :=
  outerLoopChecked M sampler Lx Ly (keypointFrame M id_octave ipt) (-8) (-0.5 : R) ⟨desc, 0⟩

/-- The value `squaredNorm()` of a 64-vector whose entries may be NaN: the sum of the squares,
NaN as soon as one entry is. -/
def squaredNormChecked {R : Type} [LinearOrderedField R] (v : Fin 64 → Option R) : Option R :=
  (List.finRange 64).foldr (fun n acc => addChecked (mulChecked (v n) (v n)) acc) (some 0)

/-- The call `dataMap.normalize()` on a vector whose entries may be NaN: for a NaN squared norm
the guard `z > 0` is false and the vector is left as it is. -/
def normalizeChecked {R : Type} [LinearOrderedField R] (sqrt : R → R)
    (v : Fin 64 → Option R) : Fin 64 → Option R :=
  match squaredNormChecked v with
  | some z => if 0 < z then fun n => (v n).map (fun x => x / sqrt z) else v
  | none => v

/-- The float overload of `ComputeMSURFDescriptor` on values that may be NaN: the loops followed
by the normalisation. -/
def ComputeMSURFDescriptorChecked {R ImageT : Type} [LinearOrderedField R] (M : MathTrait R)
    (sqrt : R → R) (sampler : ImageT → R → R → R) (Lx Ly : ImageT) (id_octave : Nat)
    (ipt : PointFeature R) (desc : Fin 64 → Option R) : Option (Fin 64 → Option R) :=
  (descriptorLoopsChecked M sampler Lx Ly id_octave ipt desc).map
    (fun o => normalizeChecked sqrt o.desc)

/-- The sums of `subregionSums` as values that are all real numbers. -/
def Sums.checked {R : Type} (s : Sums R) : SumsChecked R :=
  ⟨some s.dx, some s.dy, some s.mdx, some s.mdy⟩

/-- The output side after one pass through the body of `innerLoopChecked`, in closed form. -/
def afterSubregionChecked {R ImageT : Type} [LinearOrderedField R] (M : MathTrait R)
    (sampler : ImageT → R → R → R) (Lx Ly : ImageT) (F : Frame R) (i j : Int) (cx cy : R)
    (out : OutChecked R) : OutChecked R :=
  let s := subregionSumsChecked M sampler Lx Ly F i j
  let gauss_s2 := gaussianChecked M (cx - 2) (cy - 2) (1.5 : R)
  { desc := fun n =>
      if n.val = out.dcount + 3 then mulChecked s.mdy gauss_s2
      else if n.val = out.dcount + 2 then mulChecked s.mdx gauss_s2
      else if n.val = out.dcount + 1 then mulChecked s.dy gauss_s2
      else if n.val = out.dcount then mulChecked s.dx gauss_s2
      else out.desc n
    dcount := out.dcount + 4 }

/-- The output side after one full run of `innerLoopChecked`, in closed form. -/
def afterRowChecked {R ImageT : Type} [LinearOrderedField R] (M : MathTrait R)
    (sampler : ImageT → R → R → R) (Lx Ly : ImageT) (F : Frame R) (i : Int) (cx : R)
    (out : OutChecked R) : OutChecked R :=
  afterSubregionChecked M sampler Lx Ly F i 3 cx (3.5 : R)
    (afterSubregionChecked M sampler Lx Ly F i (-2) cx (2.5 : R)
      (afterSubregionChecked M sampler Lx Ly F i (-7) cx (1.5 : R)
        (afterSubregionChecked M sampler Lx Ly F i (-12) cx (0.5 : R) out)))

/-- The output side after the full run of `outerLoopChecked`, in closed form. -/
def afterGridChecked {R ImageT : Type} [LinearOrderedField R] (M : MathTrait R)
    (sampler : ImageT → R → R → R) (Lx Ly : ImageT) (F : Frame R) (out : OutChecked R) :
    OutChecked R :=
  afterRowChecked M sampler Lx Ly F 3 (3.5 : R)
    (afterRowChecked M sampler Lx Ly F (-2) (2.5 : R)
      (afterRowChecked M sampler Lx Ly F (-7) (1.5 : R)
        (afterRowChecked M sampler Lx Ly F (-12) (0.5 : R) out)))

end feature

namespace graph

/-! ### Triplet listing: membership and multiplicity -/

theorem mem_firstOccurrences {α : Type} [DecidableEq α] (l : List α) (a : α) :
    a ∈ firstOccurrences l ↔ a ∈ l := by
  unfold firstOccurrences
  rw [List.mem_reverse, List.mem_dedup, List.mem_reverse]

theorem nodup_firstOccurrences {α : Type} [DecidableEq α] (l : List α) :
    (firstOccurrences l).Nodup :=
  List.nodup_reverse.mpr (List.nodup_dedup _)

theorem firstOccurrences_perm {α : Type} [DecidableEq α] (l₁ l₂ : List α) (h : l₁.Perm l₂) :
    (firstOccurrences l₁).Perm (firstOccurrences l₂) := by
  unfold firstOccurrences
  exact (List.reverse_perm _).trans
    ((((List.reverse_perm l₁).trans h).trans (List.reverse_perm l₂).symm).dedup.trans
      (List.reverse_perm _).symm)

theorem mem_neighbors (g : Graph) (u w : Nat) : w ∈ neighbors g u ↔ g.hasEdge u w := by
  unfold neighbors Graph.hasEdge
  rw [mem_firstOccurrences, List.mem_filterMap]
  constructor
  · rintro ⟨⟨a, b⟩, he, h⟩
    dsimp only at h
    split_ifs at h with h1 h2
    · simp only [Option.some.injEq] at h
      subst h1 h
      exact Or.inl he
    · simp only [Option.some.injEq] at h
      subst h2 h
      exact Or.inr he
  · rintro (h | h)
    · exact ⟨(u, w), h, by simp⟩
    · refine ⟨(w, u), h, ?_⟩
      by_cases hwu : w = u
      · simp [hwu]
      · simp [hwu]

theorem mem_forwardNeighbors (g : Graph) (u v w : Nat) :
    w ∈ forwardNeighbors g u v ↔ g.hasEdge u w ∧ g.hasEdge v w ∧ v < w := by
  unfold forwardNeighbors
  simp only [List.mem_filter, decide_eq_true_eq, mem_neighbors]
  tauto

theorem nodup_forwardNeighbors (g : Graph) (u v : Nat) : (forwardNeighbors g u v).Nodup := by
  unfold forwardNeighbors neighbors
  exact ((nodup_firstOccurrences _).filter _).filter _

theorem mem_edgeTriplets (g : Graph) (e : Nat × Nat) (t : Triplet) :
    t ∈ edgeTriplets g e ↔
      t.i = min e.1 e.2 ∧ t.j = max e.1 e.2 ∧ t.i < t.j ∧
        g.hasEdge t.i t.k ∧ g.hasEdge t.j t.k ∧ t.j < t.k := by
  unfold edgeTriplets
  dsimp only
  split_ifs with h
  · simp only [List.mem_map, mem_forwardNeighbors]
    constructor
    · rintro ⟨w, ⟨h1, h2, h3⟩, rfl⟩
      exact ⟨rfl, rfl, h, h1, h2, h3⟩
    · rintro ⟨h1, h2, _, h4, h5, h6⟩
      refine ⟨t.k, ⟨h1 ▸ h4, h2 ▸ h5, h2 ▸ h6⟩, ?_⟩
      cases t
      simp only at h1 h2
      simp [h1, h2]
  · simp only [List.not_mem_nil, false_iff]
    rintro ⟨h1, h2, h3, _⟩
    exact h (h1 ▸ h2 ▸ h3)

theorem nodup_edgeTriplets (g : Graph) (e : Nat × Nat) : (edgeTriplets g e).Nodup := by
  unfold edgeTriplets
  dsimp only
  split_ifs
  · refine (nodup_forwardNeighbors g _ _).map ?_
    intro a b hab
    simpa using hab
  · exact List.nodup_nil

theorem hasEdge_of_mem (g : Graph) (e : Nat × Nat) (he : e ∈ g.edges) :
    g.hasEdge (min e.1 e.2) (max e.1 e.2) := by
  obtain ⟨a, b⟩ := e
  unfold Graph.hasEdge
  dsimp only
  rcases le_total a b with h | h
  · rw [min_eq_left h, max_eq_right h]
    exact Or.inl he
  · rw [min_eq_right h, max_eq_left h]
    exact Or.inr he

/-- The triplets of one inserted edge do not depend on the order of its endpoints. -/
theorem edgeTriplets_canonical (g : Graph) (e : Nat × Nat) :
    edgeTriplets g (canonical e) = edgeTriplets g e := by
  unfold edgeTriplets canonical
  simp only [min_le_max, min_eq_left, max_eq_right]

/-- A triplet is listed when one of the inserted pairs contributes it. -/
theorem mem_List_Triplets_iff_exists (g : Graph) (t : Triplet) :
    t ∈ (List_Triplets g).2 ↔ ∃ e ∈ g.edges, t ∈ edgeTriplets g e := by
  unfold List_Triplets undirectedEdges
  simp only [List.mem_flatMap, mem_firstOccurrences, List.mem_map]
  constructor
  · rintro ⟨_, ⟨e, he, rfl⟩, ht⟩
    exact ⟨e, he, (edgeTriplets_canonical g e) ▸ ht⟩
  · rintro ⟨e, he, ht⟩
    exact ⟨canonical e, ⟨e, he, rfl⟩, (edgeTriplets_canonical g e).symm ▸ ht⟩

/-- The listed triplets are exactly the canonical triangles of the graph. -/
theorem mem_List_Triplets (g : Graph) (t : Triplet) :
    t ∈ (List_Triplets g).2 ↔ isTriangle g t := by
  rw [mem_List_Triplets_iff_exists]
  unfold isTriangle
  simp only [mem_edgeTriplets]
  constructor
  · rintro ⟨e, he, h1, h2, h3, h4, h5, h6⟩
    refine ⟨h3, h6, ?_, h5, h4⟩
    rw [h1, h2]
    exact hasEdge_of_mem g e he
  · rintro ⟨h1, h2, h3, h4, h5⟩
    rcases h3 with h | h
    · exact ⟨(t.i, t.j), h, by simp [min_eq_left h1.le], by simp [max_eq_right h1.le],
        h1, h5, h4, h2⟩
    · exact ⟨(t.j, t.i), h, by simp [min_eq_right h1.le], by simp [max_eq_left h1.le],
        h1, h5, h4, h2⟩

theorem sameEdge_of_min_max (e f : Nat × Nat) (h1 : min e.1 e.2 = min f.1 f.2)
    (h2 : max e.1 e.2 = max f.1 f.2) : sameEdge e f := by
  obtain ⟨a, b⟩ := e
  obtain ⟨c, d⟩ := f
  unfold sameEdge
  dsimp only at h1 h2 ⊢
  omega

theorem canonical_of_mem_undirectedEdges (g : Graph) (e : Nat × Nat)
    (he : e ∈ undirectedEdges g) : canonical e = e := by
  unfold undirectedEdges at he
  rw [mem_firstOccurrences, List.mem_map] at he
  obtain ⟨f, _, rfl⟩ := he
  unfold canonical
  simp only [min_le_max, min_eq_left, max_eq_right]

/-- No triplet is listed twice: every edge is taken once and contributes its own triplets. -/
theorem nodup_List_Triplets_all (g : Graph) : (List_Triplets g).2.Nodup := by
  unfold List_Triplets
  dsimp only
  rw [List.nodup_flatMap]
  refine ⟨fun e _ => nodup_edgeTriplets g e, ?_⟩
  have hnd : (undirectedEdges g).Nodup := nodup_firstOccurrences _
  refine List.Pairwise.imp_of_mem ?_ hnd
  intro e f he hf hef t hte htf
  rw [mem_edgeTriplets] at hte htf
  apply hef
  rw [← canonical_of_mem_undirectedEdges g e he, ← canonical_of_mem_undirectedEdges g f hf]
  unfold canonical
  rw [← hte.1, ← htf.1, ← hte.2.1, ← htf.2.1]

/-- On a simple graph no triplet is listed twice. -/
theorem nodup_List_Triplets (g : Graph) (_hg : g.Simple) : (List_Triplets g).2.Nodup :=
  nodup_List_Triplets_all g

theorem hasEdge_lt (g : Graph) (hg : g.Simple) (u v : Nat) (h : g.hasEdge u v) :
    u < g.numNodes ∧ v < g.numNodes := by
  rcases h with h | h
  · exact ⟨(hg.1 _ h).1, (hg.1 _ h).2.1⟩
  · exact ⟨(hg.1 _ h).2.1, (hg.1 _ h).1⟩

theorem mem_triangles (g : Graph) (hg : g.Simple) (t : Triplet) :
    t ∈ triangles g ↔ isTriangle g t := by
  unfold triangles
  rw [Finset.mem_filter, Finset.mem_image]
  constructor
  · exact fun h => h.2
  · intro h
    refine ⟨⟨(t.i, t.j, t.k), ?_, rfl⟩, h⟩
    simp only [Finset.mem_product, Finset.mem_range]
    exact ⟨(hasEdge_lt g hg _ _ h.2.2.1).1, (hasEdge_lt g hg _ _ h.2.2.1).2,
      (hasEdge_lt g hg _ _ h.2.2.2.1).2⟩

theorem toFinset_List_Triplets (g : Graph) (hg : g.Simple) :
    (List_Triplets g).2.toFinset = triangles g := by
  ext t
  rw [List.mem_toFinset, mem_List_Triplets, mem_triangles g hg]

/-! ### Triplet listing: dependence on the edge list -/

theorem hasEdge_iff_canonical (g : Graph) (u v : Nat) :
    g.hasEdge u v ↔ (min u v, max u v) ∈ g.edges.map canonical := by
  unfold Graph.hasEdge
  rw [List.mem_map]
  constructor
  · rintro (h | h)
    · exact ⟨(u, v), h, rfl⟩
    · exact ⟨(v, u), h, by unfold canonical; rw [min_comm, max_comm]⟩
  · rintro ⟨⟨a, b⟩, he, hc⟩
    unfold canonical at hc
    simp only [Prod.mk.injEq] at hc
    have hab : (a = u ∧ b = v) ∨ (a = v ∧ b = u) := by omega
    rcases hab with ⟨rfl, rfl⟩ | ⟨rfl, rfl⟩
    · exact Or.inl he
    · exact Or.inr he

/-- Graphs with the same undirected edges have the same adjacency. -/
theorem hasEdge_of_sameEdges (g h : Graph) (hs : g.sameEdges h) (u v : Nat) :
    g.hasEdge u v ↔ h.hasEdge u v := by
  rw [hasEdge_iff_canonical, hasEdge_iff_canonical]
  exact hs.2.mem_iff

/-- The triplets of one inserted edge depend on the graph only through its adjacency, up to
their order. -/
theorem edgeTriplets_perm (g h : Graph) (hgh : ∀ u v, g.hasEdge u v ↔ h.hasEdge u v)
    (e : Nat × Nat) : (edgeTriplets g e).Perm (edgeTriplets h e) := by
  rw [List.perm_ext_iff_of_nodup (nodup_edgeTriplets g e) (nodup_edgeTriplets h e)]
  intro t
  rw [mem_edgeTriplets, mem_edgeTriplets, hgh, hgh]

theorem isEmpty_eq_of_mem_iff {α : Type} (l₁ l₂ : List α) (h : ∀ t, t ∈ l₁ ↔ t ∈ l₂) :
    l₁.isEmpty = l₂.isEmpty := by
  cases l₁ with
  | nil =>
    cases l₂ with
    | nil => rfl
    | cons b m => exact absurd ((h b).mpr (List.mem_cons_self b m)) (List.not_mem_nil b)
  | cons a l =>
    cases l₂ with
    | nil => exact absurd ((h a).mp (List.mem_cons_self a l)) (List.not_mem_nil a)
    | cons b m => rfl

/-- Graphs with the same undirected edges list the same triplets with the same multiplicities. -/
theorem List_Triplets_perm_of_sameEdges (g h : Graph) (hs : g.sameEdges h) :
    (List_Triplets g).2.Perm (List_Triplets h).2 := by
  unfold List_Triplets undirectedEdges
  dsimp only
  exact (List.Perm.flatMap_right _ (firstOccurrences_perm _ _ hs.2)).trans
    (List.Perm.flatMap_left _ (fun e _ => edgeTriplets_perm g h (hasEdge_of_sameEdges g h hs) e))

/-- Inserting a pair again does not change the adjacency. -/
theorem hasEdge_addEdge (g : Graph) (u v : Nat) (h : g.hasEdge u v) (a b : Nat) :
    (g.addEdge u v).hasEdge a b ↔ g.hasEdge a b := by
  unfold Graph.hasEdge Graph.addEdge at *
  simp only [List.mem_append, List.mem_singleton, Prod.mk.injEq]
  constructor
  · rintro ((h1 | ⟨rfl, rfl⟩) | (h1 | ⟨rfl, rfl⟩))
    · exact Or.inl h1
    · exact h
    · exact Or.inr h1
    · exact h.symm
  · rintro (h1 | h1)
    · exact Or.inl (Or.inl h1)
    · exact Or.inr (Or.inl h1)

end graph

namespace feature

/-- The ghost log of a fold grows by what each step appends. -/
theorem foldl_points {R ι : Type} (f : Sums R → ι → Sums R) (row : ι → List (Int × Int))
    (hf : ∀ s a, (f s a).points = s.points ++ row a) (l : List ι) (s : Sums R) :
    (l.foldl f s).points = s.points ++ l.flatMap row := by
  induction l generalizing s with
  | nil => simp
  | cons a l ih => rw [List.foldl_cons, ih, hf, List.flatMap_cons, List.append_assoc]

section loops

variable {R ImageT : Type} [LinearOrderedField R] (M : MathTrait R)
  (sampler : ImageT → R → R → R) (Lx Ly : ImageT) (F : Frame R)

/-! ### The sample loops -/

theorem forLoop_of_lt {σ : Type} (k hi : Int) (body : Int → σ → σ) (s : σ) (h : k < hi) :
    forLoop k hi body s = forLoop (k + 1) hi body (body k s) := by
  rw [forLoop, if_pos h]

theorem forLoop_of_not_lt {σ : Type} (k hi : Int) (body : Int → σ → σ) (s : σ) (h : ¬ k < hi) :
    forLoop k hi body s = s := by
  rw [forLoop, if_neg h]

/-- A counted `for` loop is the left fold of its body over the indices it visits. -/
theorem forLoop_eq_foldl {σ : Type} (n : Nat) (k : Int) (body : Int → σ → σ) (s : σ) :
    forLoop k (k + (n : Int)) body s
      = (List.range n).foldl (fun s (m : Nat) => body (k + (m : Int)) s) s := by
  induction n generalizing k s with
  | zero => rw [forLoop_of_not_lt _ _ _ _ (by simp)]; rfl
  | succ n ih =>
    rw [forLoop_of_lt _ _ _ _ (by push_cast; omega)]
    have e : k + ((n + 1 : Nat) : Int) = (k + 1) + (n : Int) := by push_cast; ring
    rw [e, ih, List.range_succ_eq_map, List.foldl_cons, List.foldl_map]
    simp only [Nat.cast_zero, add_zero, Nat.cast_succ]
    congr 1
    funext s m
    congr 1
    ring

/-- A property kept by the body is kept by a left fold of it. -/
theorem foldl_invariant {σ ι : Type} (P : σ → Prop) (f : σ → ι → σ)
    (hf : ∀ s m, P s → P (f s m)) (l : List ι) (s : σ) (hs : P s) : P (l.foldl f s) := by
  induction l generalizing s with
  | nil => exact hs
  | cons a l ih => exact ih _ (hf s a hs)

/-- The subregion sums as a double fold over the lattice offsets `0..8`. -/
theorem subregionSums_eq_foldl (i j : Int) :
    subregionSums M sampler Lx Ly F i j
      = (List.range 9).foldl (fun s (a : Nat) => (List.range 9).foldl (fun s (b : Nat) =>
          sampleBody M sampler Lx Ly F
            (F.xf + (((-(j + sample_step) * F.scale : Int) : R) * F.si
              + (((i + sample_step) * F.scale : Int) : R) * F.co))
            (F.yf + ((((j + sample_step) * F.scale : Int) : R) * F.co
              + (((i + sample_step) * F.scale : Int) : R) * F.si))
            (i + (a : Int)) (j + (b : Int)) s) s) ⟨0, 0, 0, 0, []⟩ := by
  unfold subregionSums
  dsimp only
  have h9 : ((9 : Nat) : Int) = 9 := rfl
  rw [← h9, forLoop_eq_foldl]
  congr 1
  funext s a
  rw [forLoop_eq_foldl]

/-- Every subregion samples exactly its 9 x 9 lattice, row by row. -/
theorem subregionSums_points (i j : Int) :
    (subregionSums M sampler Lx Ly F i j).points = lattice i j := by
  rw [subregionSums_eq_foldl, foldl_points _
    (fun (a : Nat) => (List.range 9).map (fun (b : Nat) => (i + (a : Int), j + (b : Int))))]
  · rfl
  · intro s a
    refine (foldl_points _ (fun (b : Nat) => [(i + (a : Int), j + (b : Int))])
      (fun _ _ => rfl) _ _).trans ?_
    congr 1

theorem lattice_length (i j : Int) : (lattice i j).length = 81 := by
  unfold lattice
  simp [List.length_flatMap, Function.comp_def]

end loops

/-! ### The two `while` loops -/

/-- Four consecutive stores succeed when four entries are left, and give the closed form. -/
theorem store_four {R : Type} (out : Out R) (v : Visit R) (a b c d : R)
    (h : out.dcount + 4 ≤ 64) :
    ((((({ out with visits := out.visits ++ [v] } : Out R).store a).bind
        (fun o => o.store b)).bind (fun o => o.store c)).bind (fun o => o.store d))
      = some (out.stored4 v a b c d) := by
  have h0 : out.dcount < 64 := by omega
  have h1 : out.dcount + 1 < 64 := by omega
  have h2 : out.dcount + 1 + 1 < 64 := by omega
  have h3 : out.dcount + 1 + 1 + 1 < 64 := by omega
  simp only [Out.store, h0, h1, h2, h3, dite_true, Option.some_bind, Out.stored4,
    Option.some.injEq, Out.mk.injEq, List.append_assoc, List.singleton_append, and_true,
    true_and]
  refine ⟨?_, rfl⟩
  funext n
  simp only [Function.update, Fin.ext_iff, eq_rec_constant, dite_eq_ite]

section loops

variable {R ImageT : Type} [LinearOrderedField R] (M : MathTrait R)
  (sampler : ImageT → R → R → R) (Lx Ly : ImageT) (F : Frame R)

theorem innerLoop_exit (i : Int) (cx : R) (j : Int) (cy : R) (out : Out R)
    (h : ¬ j < pattern_size) : innerLoop M sampler Lx Ly F i cx j cy out = some out := by
  rw [innerLoop, if_neg h]

/-- One pass through the body of the inner loop. -/
theorem innerLoop_step (i : Int) (cx : R) (j : Int) (cy : R) (out : Out R)
    (hj : j < pattern_size) (h : out.dcount + 4 ≤ 64) :
    innerLoop M sampler Lx Ly F i cx j cy out
      = innerLoop M sampler Lx Ly F i cx (j - 4 + 9) (cy + 1)
          (afterSubregion M sampler Lx Ly F i (j - 4) cx (cy + 1) out) := by
  rw [innerLoop, if_pos hj]
  dsimp only
  rw [store_four out _ _ _ _ _ h]
  rfl

/-- The inner loop started at `j = -8`, `cy = -0.5` returns after exactly four passes. -/
theorem innerLoop_run (i : Int) (cx : R) (out : Out R) (h : out.dcount + 16 ≤ 64) :
    innerLoop M sampler Lx Ly F i cx (-8) (-0.5 : R) out
      = some (afterRow M sampler Lx Ly F i cx out) := by
  have c1 : (-0.5 : R) + 1 = 0.5 := by norm_num
  have c2 : (0.5 : R) + 1 = 1.5 := by norm_num
  have c3 : (1.5 : R) + 1 = 2.5 := by norm_num
  have c4 : (2.5 : R) + 1 = 3.5 := by norm_num
  have d1 : ∀ (j : Int) (cy : R) (o : Out R),
      (afterSubregion M sampler Lx Ly F i j cx cy o).dcount = o.dcount + 4 := fun _ _ _ => rfl
  rw [innerLoop_step M sampler Lx Ly F i cx (-8) _ out (by decide) (by omega), c1]
  rw [innerLoop_step M sampler Lx Ly F i cx _ _ _ (by decide) (by rw [d1]; omega), c2]
  rw [innerLoop_step M sampler Lx Ly F i cx _ _ _ (by decide) (by rw [d1, d1]; omega), c3]
  rw [innerLoop_step M sampler Lx Ly F i cx _ _ _ (by decide) (by rw [d1, d1, d1]; omega), c4]
  rw [innerLoop_exit M sampler Lx Ly F i cx _ _ _ (by decide)]
  rfl

theorem afterRow_dcount (i : Int) (cx : R) (out : Out R) :
    (afterRow M sampler Lx Ly F i cx out).dcount = out.dcount + 16 := rfl

theorem outerLoop_exit (i : Int) (cx : R) (out : Out R) (h : ¬ i < pattern_size) :
    outerLoop M sampler Lx Ly F i cx out = some out := by
  rw [outerLoop, if_neg h]

/-- One pass through the body of the outer loop. -/
theorem outerLoop_step (i : Int) (cx : R) (out : Out R) (hi : i < pattern_size)
    (h : out.dcount + 16 ≤ 64) :
    outerLoop M sampler Lx Ly F i cx out
      = outerLoop M sampler Lx Ly F (i - 4 + 9) (cx + 1)
          (afterRow M sampler Lx Ly F (i - 4) (cx + 1) out) := by
  rw [outerLoop, if_pos hi]
  dsimp only
  rw [innerLoop_run M sampler Lx Ly F _ _ out h]

/-- The outer loop started at `i = -8`, `cx = -0.5` returns after exactly four passes. -/
theorem outerLoop_run (out : Out R) (h : out.dcount = 0) :
    outerLoop M sampler Lx Ly F (-8) (-0.5 : R) out = some (afterGrid M sampler Lx Ly F out) := by
  have c1 : (-0.5 : R) + 1 = 0.5 := by norm_num
  have c2 : (0.5 : R) + 1 = 1.5 := by norm_num
  have c3 : (1.5 : R) + 1 = 2.5 := by norm_num
  have c4 : (2.5 : R) + 1 = 3.5 := by norm_num
  rw [outerLoop_step M sampler Lx Ly F (-8) _ out (by decide) (by omega), c1]
  rw [outerLoop_step M sampler Lx Ly F _ _ _ (by decide) (by rw [afterRow_dcount]; omega), c2]
  rw [outerLoop_step M sampler Lx Ly F _ _ _ (by decide)
    (by rw [afterRow_dcount, afterRow_dcount]; omega), c3]
  rw [outerLoop_step M sampler Lx Ly F _ _ _ (by decide)
    (by rw [afterRow_dcount, afterRow_dcount, afterRow_dcount]; omega), c4]
  rw [outerLoop_exit M sampler Lx Ly F _ _ _ (by decide)]
  rfl

/-- The loops of `ComputeMSURFDescriptor` always run to completion, with the closed form
`afterGrid` as their result. -/
theorem descriptorLoops_eq (id_octave : Nat) (ipt : PointFeature R) (desc : Fin 64 → R) :
    descriptorLoops M sampler Lx Ly id_octave ipt desc
      = some (afterGrid M sampler Lx Ly (keypointFrame M id_octave ipt) ⟨desc, 0, [], []⟩) :=
  outerLoop_run M sampler Lx Ly _ _ rfl

end loops

/-! ### What the closed form holds -/

section closed

variable {R ImageT : Type} [LinearOrderedField R] (M : MathTrait R)
  (sampler : ImageT → R → R → R) (Lx Ly : ImageT) (F : Frame R)

theorem afterGrid_dcount (desc : Fin 64 → R) :
    (afterGrid M sampler Lx Ly F ⟨desc, 0, [], []⟩).dcount = 64 := rfl

theorem afterSubregion_writes (i j : Int) (cx cy : R) (out : Out R)
    (h : out.writes = List.range out.dcount) :
    (afterSubregion M sampler Lx Ly F i j cx cy out).writes
      = List.range (afterSubregion M sampler Lx Ly F i j cx cy out).dcount := by
  simp only [afterSubregion, Out.stored4, h]
  rw [List.range_succ, List.range_succ, List.range_succ, List.range_succ]
  simp only [List.append_assoc, List.singleton_append]
  rfl

theorem afterGrid_writes (desc : Fin 64 → R) :
    (afterGrid M sampler Lx Ly F ⟨desc, 0, [], []⟩).writes = List.range 64 := by
  have h0 : (⟨desc, 0, [], []⟩ : Out R).writes
      = List.range (⟨desc, 0, [], []⟩ : Out R).dcount := rfl
  have h := afterGrid_dcount M sampler Lx Ly F desc
  rw [← h]
  unfold afterGrid afterRow
  iterate 16 refine afterSubregion_writes M sampler Lx Ly F _ _ _ _ _ ?_
  exact h0

/-- The four stores of a subregion go to its entry value of `dcount` and the next three. -/
theorem afterSubregion_writes_visits (i j : Int) (cx cy : R) (out : Out R)
    (h : out.writes
      = out.visits.flatMap (fun v => [v.dcount, v.dcount + 1, v.dcount + 2, v.dcount + 3])) :
    (afterSubregion M sampler Lx Ly F i j cx cy out).writes
      = (afterSubregion M sampler Lx Ly F i j cx cy out).visits.flatMap
          (fun v => [v.dcount, v.dcount + 1, v.dcount + 2, v.dcount + 3]) := by
  simp only [afterSubregion, Out.stored4, h, List.flatMap_append, List.flatMap_cons,
    List.flatMap_nil, List.append_nil]

theorem afterGrid_writes_visits (desc : Fin 64 → R) :
    (afterGrid M sampler Lx Ly F ⟨desc, 0, [], []⟩).writes
      = (afterGrid M sampler Lx Ly F ⟨desc, 0, [], []⟩).visits.flatMap
          (fun v => [v.dcount, v.dcount + 1, v.dcount + 2, v.dcount + 3]) := by
  unfold afterGrid afterRow
  iterate 16 refine afterSubregion_writes_visits M sampler Lx Ly F _ _ _ _ _ ?_
  rfl

/-- The sixteen visits in order: lattice origin, entry value of `dcount`, sampled indices. -/
theorem afterGrid_visits (desc : Fin 64 → R) :
    (afterGrid M sampler Lx Ly F ⟨desc, 0, [], []⟩).visits.map
        (fun v => (v.i, v.j, v.dcount, v.points))
      = (List.range 16).map (fun t =>
          (5 * ((t / 4 : Nat) : Int) - 12, 5 * ((t % 4 : Nat) : Int) - 12, 4 * t,
            lattice (5 * ((t / 4 : Nat) : Int) - 12) (5 * ((t % 4 : Nat) : Int) - 12))) := by
  simp only [afterGrid, afterRow, afterSubregion, Out.stored4, subregionSums_points]
  rfl

/-- The entries below the entry value of `dcount` are not touched by a subregion. -/
theorem afterSubregion_desc_of_lt (i j : Int) (cx cy : R) (out : Out R) (n : Fin 64)
    (h : n.val < out.dcount) :
    (afterSubregion M sampler Lx Ly F i j cx cy out).desc n = out.desc n := by
  simp only [afterSubregion, Out.stored4]
  rw [if_neg (by omega), if_neg (by omega), if_neg (by omega), if_neg (by omega)]

/-- The second entry a subregion stores is its `dy` sum times the second Gaussian. -/
theorem afterSubregion_desc_dy (i j : Int) (cx cy : R) (out : Out R) (n : Fin 64)
    (h : n.val = out.dcount + 1) :
    (afterSubregion M sampler Lx Ly F i j cx cy out).desc n
      = (subregionSums M sampler Lx Ly F i j).dy * gaussian M (cx - 2) (cy - 2) (1.5 : R) := by
  simp only [afterSubregion, Out.stored4]
  rw [if_neg (by omega), if_neg (by omega), if_pos h]

/-- When the exponential is positive and every rotated sample `rx * co + ry * si` is positive,
the `dy` sum of a subregion is positive. -/
theorem subregionSums_dy_pos (i j : Int) (hexp : ∀ x, 0 < M.exp x)
    (hs : ∀ y x, 0 < sampler Lx y x * F.co + sampler Ly y x * F.si) :
    0 < (subregionSums M sampler Lx Ly F i j).dy := by
  have hpts : (subregionSums M sampler Lx Ly F i j).points ≠ [] := by
    rw [subregionSums_points]
    intro h
    have := lattice_length i j
    rw [h] at this
    exact absurd this (by decide)
  have inv : 0 ≤ (subregionSums M sampler Lx Ly F i j).dy ∧
      ((subregionSums M sampler Lx Ly F i j).points ≠ [] →
        0 < (subregionSums M sampler Lx Ly F i j).dy) := by
    rw [subregionSums_eq_foldl]
    refine foldl_invariant (fun s : Sums R => 0 ≤ s.dy ∧ (s.points ≠ [] → 0 < s.dy)) _ ?_ _ _
      ⟨le_refl _, fun h => absurd rfl h⟩
    intro s a hs0
    refine foldl_invariant (fun s : Sums R => 0 ≤ s.dy ∧ (s.points ≠ [] → 0 < s.dy)) _ ?_ _ _ hs0
    rintro s b ⟨h1, _⟩
    have hpos : 0 < (sampleBody M sampler Lx Ly F
        (F.xf + (((-(j + sample_step) * F.scale : Int) : R) * F.si
          + (((i + sample_step) * F.scale : Int) : R) * F.co))
        (F.yf + ((((j + sample_step) * F.scale : Int) : R) * F.co
          + (((i + sample_step) * F.scale : Int) : R) * F.si))
        (i + (a : Int)) (j + (b : Int)) s).dy := by
      simp only [sampleBody, gaussian]
      exact add_pos_of_nonneg_of_pos h1 (mul_pos (hexp _) (hs _ _))
    exact ⟨hpos.le, fun _ => hpos⟩
  exact inv.2 hpts

/-- Entry 1 of the un-normalised descriptor is the `dy` sum of the first subregion times its
second Gaussian weight. -/
theorem afterGrid_desc_one (desc : Fin 64 → R) :
    (afterGrid M sampler Lx Ly F ⟨desc, 0, [], []⟩).desc 1
      = (subregionSums M sampler Lx Ly F (-12) (-12)).dy
          * gaussian M ((0.5 : R) - 2) ((0.5 : R) - 2) (1.5 : R) := by
  have e : ∀ (i j : Int) (cx cy : R) (o : Out R),
      (afterSubregion M sampler Lx Ly F i j cx cy o).dcount = o.dcount + 4 := fun _ _ _ _ _ => rfl
  have v1 : ((1 : Fin 64) : Nat) = 1 := rfl
  simp only [afterGrid, afterRow]
  iterate 15 rw [afterSubregion_desc_of_lt _ _ _ _ _ _ _ _ _ _ _ (by simp only [e, v1]; omega)]
  rw [afterSubregion_desc_dy _ _ _ _ _ _ _ _ _ _ _ rfl]

end closed

/-! ### Normalisation -/

theorem squaredNorm_nonneg {R : Type} [LinearOrderedField R] (v : Fin 64 → R) :
    0 ≤ squaredNorm v :=
  Finset.sum_nonneg (fun n _ => mul_self_nonneg (v n))

theorem squaredNorm_pos {R : Type} [LinearOrderedField R] (v : Fin 64 → R)
    (h : ∃ n, v n ≠ 0) : 0 < squaredNorm v := by
  obtain ⟨n, hn⟩ := h
  unfold squaredNorm
  refine lt_of_lt_of_le (mul_self_pos.mpr hn) ?_
  exact Finset.single_le_sum (f := fun m => v m * v m) (fun m _ => mul_self_nonneg (v m))
    (Finset.mem_univ n)

/-- A vector that is not all zero is divided by its norm and gets squared norm 1. -/
theorem normalize_of_ne_zero (v : Fin 64 → ℝ) (h : ∃ n, v n ≠ 0) :
    normalize Real.sqrt v = (fun n => v n / Real.sqrt (squaredNorm v)) ∧
      squaredNorm (normalize Real.sqrt v) = 1 := by
  have hz : 0 < squaredNorm v := squaredNorm_pos v h
  have hn : normalize Real.sqrt v = (fun n => v n / Real.sqrt (squaredNorm v)) := by
    unfold normalize
    simp only [hz, if_true]
  refine ⟨hn, ?_⟩
  rw [hn]
  have hs : Real.sqrt (squaredNorm v) * Real.sqrt (squaredNorm v) = squaredNorm v :=
    Real.mul_self_sqrt hz.le
  have hterm : ∀ n : Fin 64,
      v n / Real.sqrt (squaredNorm v) * (v n / Real.sqrt (squaredNorm v))
        = v n * v n / squaredNorm v := by
    intro n
    rw [div_mul_div_comm, hs]
  calc squaredNorm (fun n => v n / Real.sqrt (squaredNorm v))
      = ∑ n : Fin 64, v n * v n / squaredNorm v := Finset.sum_congr rfl (fun n _ => hterm n)
    _ = (∑ n : Fin 64, v n * v n) / squaredNorm v := (Finset.sum_div _ _ _).symm
    _ = 1 := div_self hz.ne'

/-- The frame read from the keypoint depends on the orientation only through its cosine and
sine. -/
theorem keypointFrame_orientation {R : Type} [LinearOrderedField R] (M : MathTrait R)
    (id_octave : Nat) (ipt : PointFeature R) (a b : R) (hc : M.cos a = M.cos b)
    (hs : M.sin a = M.sin b) :
    keypointFrame M id_octave { ipt with orientation := a }
      = keypointFrame M id_octave { ipt with orientation := b } := by
  simp only [keypointFrame, hc, hs]

/-! ### The stored values in closed form -/

section values

variable {R ImageT : Type} [LinearOrderedField R] (M : MathTrait R)
  (sampler : ImageT → R → R → R) (Lx Ly : ImageT) (F : Frame R)

/-- The subregion sums as a double fold of the body with the centre `(centreX, centreY)`. -/
theorem subregionSums_eq_foldl_centre (i j : Int) :
    subregionSums M sampler Lx Ly F i j
      = (List.range 9).foldl (fun s (a : Nat) => (List.range 9).foldl (fun s (b : Nat) =>
          sampleBody M sampler Lx Ly F (centreX F i j) (centreY F i j)
            (i + (a : Int)) (j + (b : Int)) s) s) ⟨0, 0, 0, 0, []⟩ :=
  subregionSums_eq_foldl M sampler Lx Ly F i j

theorem afterSubregion_dcount (i j : Int) (cx cy : R) (out : Out R) :
    (afterSubregion M sampler Lx Ly F i j cx cy out).dcount = out.dcount + 4 := rfl

theorem afterSubregion_visits (i j : Int) (cx cy : R) (out : Out R) :
    (afterSubregion M sampler Lx Ly F i j cx cy out).visits
      = out.visits ++ [⟨i, j, cx, cy, out.dcount,
          (subregionSums M sampler Lx Ly F i j).points⟩] := rfl

/-- A subregion leaves the slices of the earlier visits as they are. -/
theorem afterSubregion_slice_of_le (i j : Int) (cx cy : R) (out : Out R) (v : Visit R)
    (h : v.dcount + 4 ≤ out.dcount) :
    (afterSubregion M sampler Lx Ly F i j cx cy out).slice v = out.slice v := by
  have key : ∀ idx : Nat, idx < out.dcount →
      (afterSubregion M sampler Lx Ly F i j cx cy out).read idx = out.read idx := by
    intro idx hidx
    unfold Out.read
    split_ifs with h64
    · rw [afterSubregion_desc_of_lt M sampler Lx Ly F i j cx cy out ⟨idx, h64⟩ hidx]
    · rfl
  unfold Out.slice
  rw [key _ (by omega), key _ (by omega), key _ (by omega), key _ (by omega)]

/-- The slice of the visit a subregion has just made holds the four values of that visit. -/
theorem afterSubregion_slice_new (i j : Int) (cx cy : R) (out : Out R)
    (h : out.dcount + 4 ≤ 64) :
    (afterSubregion M sampler Lx Ly F i j cx cy out).slice
        ⟨i, j, cx, cy, out.dcount, (subregionSums M sampler Lx Ly F i j).points⟩
      = visitValues M sampler Lx Ly F
          ⟨i, j, cx, cy, out.dcount, (subregionSums M sampler Lx Ly F i j).points⟩ := by
  have h0 : out.dcount < 64 := by omega
  have h1 : out.dcount + 1 < 64 := by omega
  have h2 : out.dcount + 2 < 64 := by omega
  have h3 : out.dcount + 3 < 64 := by omega
  have e1 : ¬ out.dcount = out.dcount + 1 := by omega
  have e2 : ¬ out.dcount = out.dcount + 2 := by omega
  have e3 : ¬ out.dcount = out.dcount + 3 := by omega
  simp only [Out.slice, Out.read, visitValues, afterSubregion, Out.stored4, h0, h1, h2, h3,
    dite_true, Nat.add_right_cancel_iff, add_right_eq_self, OfNat.ofNat_ne_zero,
    OfNat.ofNat_ne_one, OfNat.one_ne_ofNat, one_ne_zero, if_false, if_true, Nat.reduceEqDiff,
    e1, e2, e3]

/-- The slices of all visits hold their values, and lie below `dcount`: kept by a subregion. -/
theorem afterSubregion_slices (i j : Int) (cx cy : R) (out : Out R) (h : out.dcount + 4 ≤ 64)
    (hinv : ∀ v ∈ out.visits,
      v.dcount + 4 ≤ out.dcount ∧ out.slice v = visitValues M sampler Lx Ly F v) :
    ∀ v ∈ (afterSubregion M sampler Lx Ly F i j cx cy out).visits,
      v.dcount + 4 ≤ (afterSubregion M sampler Lx Ly F i j cx cy out).dcount ∧
        (afterSubregion M sampler Lx Ly F i j cx cy out).slice v
          = visitValues M sampler Lx Ly F v := by
  intro v hv
  rw [afterSubregion_visits, List.mem_append, List.mem_singleton] at hv
  rw [afterSubregion_dcount]
  rcases hv with hv | rfl
  · obtain ⟨h1, h2⟩ := hinv v hv
    exact ⟨by omega, by rw [afterSubregion_slice_of_le M sampler Lx Ly F i j cx cy out v h1, h2]⟩
  · exact ⟨le_refl _, afterSubregion_slice_new M sampler Lx Ly F i j cx cy out h⟩

/-- After the loops the slice of every visit holds the four values of that visit. -/
theorem afterGrid_slices (desc : Fin 64 → R) :
    ∀ v ∈ (afterGrid M sampler Lx Ly F ⟨desc, 0, [], []⟩).visits,
      (afterGrid M sampler Lx Ly F ⟨desc, 0, [], []⟩).slice v
        = visitValues M sampler Lx Ly F v := by
  have h0 : ∀ v ∈ (⟨desc, 0, [], []⟩ : Out R).visits,
      v.dcount + 4 ≤ (⟨desc, 0, [], []⟩ : Out R).dcount ∧
        (⟨desc, 0, [], []⟩ : Out R).slice v = visitValues M sampler Lx Ly F v :=
    fun v hv => absurd hv (List.not_mem_nil v)
  have all : ∀ v ∈ (afterGrid M sampler Lx Ly F ⟨desc, 0, [], []⟩).visits,
      v.dcount + 4 ≤ (afterGrid M sampler Lx Ly F ⟨desc, 0, [], []⟩).dcount ∧
        (afterGrid M sampler Lx Ly F ⟨desc, 0, [], []⟩).slice v
          = visitValues M sampler Lx Ly F v := by
    unfold afterGrid afterRow
    iterate 16
      refine afterSubregion_slices M sampler Lx Ly F _ _ _ _ _ ?_ ?_
      · exact Nat.le_of_ble_eq_true rfl
    exact h0
  exact fun v hv => (all v hv).2

end values

section values

variable {R ImageT : Type} [LinearOrderedField R] (M : MathTrait R)
  (sampler : ImageT → R → R → R) (Lx Ly : ImageT) (F : Frame R)

end values

section values

variable {R ImageT : Type} [LinearOrderedField R] (M : MathTrait R)
  (sampler : ImageT → R → R → R) (Lx Ly : ImageT) (F : Frame R)

/-- The lattice origins of the sixteen visits, in order. -/
theorem afterGrid_origins (desc : Fin 64 → R) :
    (afterGrid M sampler Lx Ly F ⟨desc, 0, [], []⟩).visits.map (fun v => (v.i, v.j))
      = [-12, -7, -2, 3].flatMap (fun i => [-12, -7, -2, 3].map (fun j => (i, j))) := by
  have h := congrArg (List.map (fun q : Int × Int × Nat × List (Int × Int) => (q.1, q.2.1)))
    (afterGrid_visits M sampler Lx Ly F desc)
  simp only [List.map_map, Function.comp_def] at h
  rw [h]
  decide

/-- Every visit samples the 9 x 9 lattice at its origin. -/
theorem afterGrid_points (desc : Fin 64 → R) :
    (afterGrid M sampler Lx Ly F ⟨desc, 0, [], []⟩).visits.map (fun v => v.points)
      = (afterGrid M sampler Lx Ly F ⟨desc, 0, [], []⟩).visits.map
          (fun v => lattice v.i v.j) := by
  have h1 := congrArg (List.map (fun q : Int × Int × Nat × List (Int × Int) => q.2.2.2))
    (afterGrid_visits M sampler Lx Ly F desc)
  have h2 := congrArg
    (List.map (fun q : Int × Int × Nat × List (Int × Int) => lattice q.1 q.2.1))
    (afterGrid_visits M sampler Lx Ly F desc)
  simp only [List.map_map, Function.comp_def] at h1 h2
  rw [h1, h2]

/-- The centre `(xs, ys)` of a subregion is the sample position of the lattice indices
`(i + 5, j + 5)`. -/
theorem centre_eq_sample (i j : Int) :
    centreX F i j = sampleX F (i + 5) (j + 5) ∧ centreY F i j = sampleY F (i + 5) (j + 5) :=
  ⟨rfl, rfl⟩

/-- At the lattice indices `(i + 5, j + 5)` the first Gaussian is evaluated at its centre. -/
theorem firstGaussian_centre (i j : Int) :
    firstGaussian M F i j (i + 5) (j + 5) = M.exp 0 := by
  unfold firstGaussian gaussian
  rw [(centre_eq_sample F i j).1, (centre_eq_sample F i j).2, sub_self, sub_self, mul_zero,
    add_zero, neg_zero, zero_div]

theorem mem_lattice_centre (i j : Int) : (i + 5, j + 5) ∈ lattice i j :=
  List.mem_flatMap.mpr ⟨5, by decide, List.mem_map.mpr ⟨5, by decide, rfl⟩⟩

/-- The midpoint of a lattice, its 41st element of 81, has the indices `(i + 4, j + 4)`. -/
theorem lattice_midpoint (i j : Int) : (lattice i j)[40]? = some (i + 4, j + 4) := rfl

end values

section values

variable {R ImageT : Type} [LinearOrderedField R] (M : MathTrait R)
  (sampler : ImageT → R → R → R) (Lx Ly : ImageT) (F : Frame R)

/-- One pass of the inner loop stores what the explicit subregion `(r, c)` stores, when the pass
is entered with the lattice origin, grid coordinates and `dcount` of that subregion. -/
theorem afterSubregion_desc_explicit (r c : Nat) (i j : Int) (cx cy : R) (out : Out R)
    (hi : i = 5 * (r : Int) - 12) (hj : j = 5 * (c : Int) - 12) (hcx : cx = (r : R) + 0.5)
    (hcy : cy = (c : R) + 0.5) (hd : out.dcount = 4 * (4 * r + c)) :
    (afterSubregion M sampler Lx Ly F i j cx cy out).desc
      = explicitSubregion M sampler Lx Ly F r c out.desc := by
  subst hi hj hcx hcy
  simp only [afterSubregion, Out.stored4, explicitSubregion, hd]
  rfl

/-- The index-stepping loops leave in `desc` what the explicit double loop leaves. -/
theorem afterGrid_desc_explicit (desc : Fin 64 → R) :
    (afterGrid M sampler Lx Ly F ⟨desc, 0, [], []⟩).desc
      = explicitLoops M sampler Lx Ly F desc := by
  have c0 : (0.5 : R) = ((0 : Nat) : R) + 0.5 := by norm_num
  have c1 : (1.5 : R) = ((1 : Nat) : R) + 0.5 := by norm_num
  have c2 : (2.5 : R) = ((2 : Nat) : R) + 0.5 := by norm_num
  have c3 : (3.5 : R) = ((3 : Nat) : R) + 0.5 := by norm_num
  unfold afterGrid afterRow
  rw [afterSubregion_desc_explicit M sampler Lx Ly F 3 3 3 3 (3.5 : R) (3.5 : R) _
      (by decide) (by decide) c3 c3 rfl,
    afterSubregion_desc_explicit M sampler Lx Ly F 3 2 3 (-2) (3.5 : R) (2.5 : R) _
      (by decide) (by decide) c3 c2 rfl,
    afterSubregion_desc_explicit M sampler Lx Ly F 3 1 3 (-7) (3.5 : R) (1.5 : R) _
      (by decide) (by decide) c3 c1 rfl,
    afterSubregion_desc_explicit M sampler Lx Ly F 3 0 3 (-12) (3.5 : R) (0.5 : R) _
      (by decide) (by decide) c3 c0 rfl,
    afterSubregion_desc_explicit M sampler Lx Ly F 2 3 (-2) 3 (2.5 : R) (3.5 : R) _
      (by decide) (by decide) c2 c3 rfl,
    afterSubregion_desc_explicit M sampler Lx Ly F 2 2 (-2) (-2) (2.5 : R) (2.5 : R) _
      (by decide) (by decide) c2 c2 rfl,
    afterSubregion_desc_explicit M sampler Lx Ly F 2 1 (-2) (-7) (2.5 : R) (1.5 : R) _
      (by decide) (by decide) c2 c1 rfl,
    afterSubregion_desc_explicit M sampler Lx Ly F 2 0 (-2) (-12) (2.5 : R) (0.5 : R) _
      (by decide) (by decide) c2 c0 rfl,
    afterSubregion_desc_explicit M sampler Lx Ly F 1 3 (-7) 3 (1.5 : R) (3.5 : R) _
      (by decide) (by decide) c1 c3 rfl,
    afterSubregion_desc_explicit M sampler Lx Ly F 1 2 (-7) (-2) (1.5 : R) (2.5 : R) _
      (by decide) (by decide) c1 c2 rfl,
    afterSubregion_desc_explicit M sampler Lx Ly F 1 1 (-7) (-7) (1.5 : R) (1.5 : R) _
      (by decide) (by decide) c1 c1 rfl,
    afterSubregion_desc_explicit M sampler Lx Ly F 1 0 (-7) (-12) (1.5 : R) (0.5 : R) _
      (by decide) (by decide) c1 c0 rfl,
    afterSubregion_desc_explicit M sampler Lx Ly F 0 3 (-12) 3 (0.5 : R) (3.5 : R) _
      (by decide) (by decide) c0 c3 rfl,
    afterSubregion_desc_explicit M sampler Lx Ly F 0 2 (-12) (-2) (0.5 : R) (2.5 : R) _
      (by decide) (by decide) c0 c2 rfl,
    afterSubregion_desc_explicit M sampler Lx Ly F 0 1 (-12) (-7) (0.5 : R) (1.5 : R) _
      (by decide) (by decide) c0 c1 rfl,
    afterSubregion_desc_explicit M sampler Lx Ly F 0 0 (-12) (-12) (0.5 : R) (0.5 : R) _
      (by decide) (by decide) c0 c0 rfl]
  rfl

end values

section values

variable {R ImageT : Type} [LinearOrderedField R] (M : MathTrait R)
  (sampler : ImageT → R → R → R) (Lx Ly : ImageT) (F : Frame R)

/-- The grid coordinates `(cx, cy)` of the sixteen visits, in order: `r + 0.5` and `c + 0.5` for
the visit `t = 4 r + c`. -/
theorem afterGrid_coords (desc : Fin 64 → R) :
    (afterGrid M sampler Lx Ly F ⟨desc, 0, [], []⟩).visits.map (fun v => (v.cx, v.cy))
      = (List.range 16).map (fun t => (((t / 4 : Nat) : R) + 0.5, ((t % 4 : Nat) : R) + 0.5)) := by
  have hr : List.range 16 = [0, 1, 2, 3, 4, 5, 6, 7, 8, 9, 10, 11, 12, 13, 14, 15] := rfl
  unfold afterGrid afterRow
  rw [hr]
  simp only [afterSubregion_visits, List.map_append, List.map_cons, List.map_nil,
    List.nil_append, List.cons_append, List.append_assoc, List.singleton_append]
  norm_num

/-- The second Gaussian depends on its two offsets only through their squares. -/
theorem gaussian_second (x y : R) :
    gaussian M x y (1.5 : R) = M.exp (-(x ^ 2 + y ^ 2) / 4.5) := by
  unfold gaussian
  congr 1
  norm_num
  ring

end values

section dominance

variable {ImageT : Type} (M : MathTrait ℝ) (sampler : ImageT → ℝ → ℝ → ℝ) (Lx Ly : ImageT)
  (F : Frame ℝ)

/-- With `abs` the absolute value, the absolute sums of a subregion dominate its signed sums. -/
theorem subregionSums_abs_le (i j : Int) (habs : ∀ x, M.abs x = |x|) :
    |(subregionSums M sampler Lx Ly F i j).dx| ≤ (subregionSums M sampler Lx Ly F i j).mdx ∧
      |(subregionSums M sampler Lx Ly F i j).dy| ≤ (subregionSums M sampler Lx Ly F i j).mdy := by
  rw [subregionSums_eq_foldl]
  refine foldl_invariant (fun s : Sums ℝ => |s.dx| ≤ s.mdx ∧ |s.dy| ≤ s.mdy) _ ?_ _ _
    ⟨by simp, by simp⟩
  intro s a hs
  refine foldl_invariant (fun s : Sums ℝ => |s.dx| ≤ s.mdx ∧ |s.dy| ≤ s.mdy) _ ?_ _ _ hs
  rintro s b ⟨h1, h2⟩
  simp only [sampleBody, habs]
  exact ⟨(abs_add _ _).trans (add_le_add_right h1 _), (abs_add _ _).trans (add_le_add_right h2 _)⟩

/-- The entries two places apart in each slice already stored, `desc[4 t]` against `desc[4 t + 2]`
and `desc[4 t + 1]` against `desc[4 t + 3]`, stay in the order `abs ≤`, pass after pass. -/
theorem afterSubregion_dominates (i j : Int) (cx cy : ℝ) (out : Out ℝ)
    (hexp : ∀ x, 0 ≤ M.exp x) (habs : ∀ x, M.abs x = |x|) (hd : out.dcount % 4 = 0)
    (hinv : ∀ n m : Fin 64, n.val % 4 < 2 → n.val < out.dcount → m.val = n.val + 2 →
      |out.desc n| ≤ out.desc m) :
    (afterSubregion M sampler Lx Ly F i j cx cy out).dcount % 4 = 0 ∧
      ∀ n m : Fin 64, n.val % 4 < 2 →
        n.val < (afterSubregion M sampler Lx Ly F i j cx cy out).dcount → m.val = n.val + 2 →
        |(afterSubregion M sampler Lx Ly F i j cx cy out).desc n|
          ≤ (afterSubregion M sampler Lx Ly F i j cx cy out).desc m := by
  refine ⟨by rw [afterSubregion_dcount]; omega, ?_⟩
  intro n m hn4 hn hm
  rw [afterSubregion_dcount] at hn
  obtain ⟨h1, h2⟩ := subregionSums_abs_le M sampler Lx Ly F i j habs
  have hg : 0 ≤ gaussian M (cx - 2) (cy - 2) (1.5 : ℝ) := hexp _
  by_cases hlt : n.val < out.dcount
  · have hmlt : m.val < out.dcount := by omega
    rw [afterSubregion_desc_of_lt M sampler Lx Ly F i j cx cy out n hlt,
      afterSubregion_desc_of_lt M sampler Lx Ly F i j cx cy out m hmlt]
    exact hinv n m hn4 hlt hm
  · have hcase : n.val = out.dcount ∨ n.val = out.dcount + 1 := by omega
    rcases hcase with hc | hc
    · have hm2 : m.val = out.dcount + 2 := by omega
      simp only [afterSubregion, Out.stored4]
      rw [if_neg (by omega), if_neg (by omega), if_neg (by omega), if_pos hc,
        if_neg (by omega), if_pos hm2, abs_mul, abs_of_nonneg hg]
      exact mul_le_mul_of_nonneg_right h1 hg
    · have hm3 : m.val = out.dcount + 3 := by omega
      simp only [afterSubregion, Out.stored4]
      rw [if_neg (by omega), if_neg (by omega), if_pos hc, if_pos hm3, abs_mul,
        abs_of_nonneg hg]
      exact mul_le_mul_of_nonneg_right h2 hg

/-- After the loops every slice has its absolute-sum entries above the absolute values of its
signed-sum entries. -/
theorem afterGrid_dominates (desc : Fin 64 → ℝ) (hexp : ∀ x, 0 ≤ M.exp x)
    (habs : ∀ x, M.abs x = |x|) (n m : Fin 64) (hn : n.val % 4 < 2) (hm : m.val = n.val + 2) :
    |(afterGrid M sampler Lx Ly F ⟨desc, 0, [], []⟩).desc n|
      ≤ (afterGrid M sampler Lx Ly F ⟨desc, 0, [], []⟩).desc m := by
  have h0 : (⟨desc, 0, [], []⟩ : Out ℝ).dcount % 4 = 0 ∧
      ∀ n m : Fin 64, n.val % 4 < 2 → n.val < (⟨desc, 0, [], []⟩ : Out ℝ).dcount →
        m.val = n.val + 2 →
        |(⟨desc, 0, [], []⟩ : Out ℝ).desc n| ≤ (⟨desc, 0, [], []⟩ : Out ℝ).desc m :=
    ⟨rfl, fun n _ _ h _ => absurd h (Nat.not_lt_zero _)⟩
  have step : ∀ (i j : Int) (cx cy : ℝ) (out : Out ℝ),
      (out.dcount % 4 = 0 ∧ ∀ n m : Fin 64, n.val % 4 < 2 → n.val < out.dcount →
        m.val = n.val + 2 → |out.desc n| ≤ out.desc m) →
      ((afterSubregion M sampler Lx Ly F i j cx cy out).dcount % 4 = 0 ∧
        ∀ n m : Fin 64, n.val % 4 < 2 →
          n.val < (afterSubregion M sampler Lx Ly F i j cx cy out).dcount → m.val = n.val + 2 →
          |(afterSubregion M sampler Lx Ly F i j cx cy out).desc n|
            ≤ (afterSubregion M sampler Lx Ly F i j cx cy out).desc m) :=
    fun i j cx cy out h =>
      afterSubregion_dominates M sampler Lx Ly F i j cx cy out hexp habs h.1 h.2
  have all : (afterGrid M sampler Lx Ly F ⟨desc, 0, [], []⟩).dcount % 4 = 0 ∧
      ∀ n m : Fin 64, n.val % 4 < 2 →
        n.val < (afterGrid M sampler Lx Ly F ⟨desc, 0, [], []⟩).dcount → m.val = n.val + 2 →
        |(afterGrid M sampler Lx Ly F ⟨desc, 0, [], []⟩).desc n|
          ≤ (afterGrid M sampler Lx Ly F ⟨desc, 0, [], []⟩).desc m := by
    unfold afterGrid afterRow
    iterate 16 refine step _ _ _ _ _ ?_
    exact h0
  exact all.2 n m hn n.isLt hm

/-- The normalisation multiplies every entry by one positive factor. -/
theorem normalize_scalar (v : Fin 64 → ℝ) :
    ∃ c : ℝ, 0 < c ∧ ∀ n, normalize Real.sqrt v n = c * v n := by
  by_cases hz : 0 < squaredNorm v
  · refine ⟨(Real.sqrt (squaredNorm v))⁻¹, inv_pos.mpr (Real.sqrt_pos.mpr hz), fun n => ?_⟩
    unfold normalize
    simp only [hz, if_true]
    exact div_eq_inv_mul _ _
  · refine ⟨1, one_pos, fun n => ?_⟩
    unfold normalize
    simp only [hz, if_false, one_mul]

end dominance

/-! ### The checked computation against the field reading -/

section checked

variable {R ImageT : Type} [LinearOrderedField R] (M : MathTrait R)
  (sampler : ImageT → R → R → R) (Lx Ly : ImageT) (F : Frame R)

/-- The divisor of the first Gaussian vanishes exactly when the rounded scale is 0. -/
theorem firstDivisor_eq_zero_iff :
    (2 : R) * ((2.5 : R) * (F.scale : R)) * ((2.5 : R) * (F.scale : R)) = 0 ↔ F.scale = 0 := by
  constructor
  · intro h
    have h1 : ((2.5 : R) * (F.scale : R)) = 0 := by
      rcases mul_eq_zero.mp h with h | h
      · rcases mul_eq_zero.mp h with h | h
        · exact absurd h (by norm_num)
        · exact h
      · exact h
    rcases mul_eq_zero.mp h1 with h | h
    · exact absurd h (by norm_num)
    · exact Int.cast_eq_zero.mp h
  · intro h
    rw [h, Int.cast_zero, mul_zero, mul_zero]

/-- The second Gaussian, with the constant `sigma = 1.5`, is always a real number. -/
theorem gaussianChecked_second (x y : R) :
    gaussianChecked M x y (1.5 : R) = some (gaussian M x y (1.5 : R)) := by
  unfold gaussianChecked
  rw [if_neg (by norm_num)]

/-- At rounded scale 0 every pass of the sample body of a subregion leaves four NaN sums: the
sample and the centre `(xs, ys)` are both the keypoint position, so the first Gaussian is
evaluated at `x = y = 0` with divisor 0. -/
theorem sampleBodyChecked_of_scale_zero (hs : F.scale = 0) (i j k l : Int)
    (s : SumsChecked R) :
    sampleBodyChecked M sampler Lx Ly F
        (F.xf + (((-(j + sample_step) * F.scale : Int) : R) * F.si
          + (((i + sample_step) * F.scale : Int) : R) * F.co))
        (F.yf + ((((j + sample_step) * F.scale : Int) : R) * F.co
          + (((i + sample_step) * F.scale : Int) : R) * F.si)) k l s
      = ⟨none, none, none, none⟩ := by
  unfold sampleBodyChecked gaussianChecked
  have hx : (F.xf + (((-(j + sample_step) * F.scale : Int) : R) * F.si
        + (((i + sample_step) * F.scale : Int) : R) * F.co)
      - (F.xf + (((-l * F.scale : Int) : R) * F.si + ((k * F.scale : Int) : R) * F.co)))
      = 0 := by
    rw [hs]
    simp
  have hy : (F.yf + ((((j + sample_step) * F.scale : Int) : R) * F.co
        + (((i + sample_step) * F.scale : Int) : R) * F.si)
      - (F.yf + (((l * F.scale : Int) : R) * F.co + ((k * F.scale : Int) : R) * F.si)))
      = 0 := by
    rw [hs]
    simp
  simp only [hx, hy, mul_zero, add_zero, (firstDivisor_eq_zero_iff F).mpr hs, if_true,
    mulChecked, addChecked, Option.none_bind, Option.map_none']
  cases s with
  | mk dx dy mdx mdy => cases dx <;> cases dy <;> cases mdx <;> cases mdy <;> rfl

/-- At a non-zero rounded scale the checked sample body follows the field reading. -/
theorem sampleBodyChecked_of_scale_ne (hs : F.scale ≠ 0) (xs ys : R) (k l : Int)
    (s : Sums R) :
    sampleBodyChecked M sampler Lx Ly F xs ys k l s.checked
      = (sampleBody M sampler Lx Ly F xs ys k l s).checked := by
  unfold sampleBodyChecked gaussianChecked
  simp only [mt (firstDivisor_eq_zero_iff F).mp hs, if_false]
  rfl

/-- A left fold whose every step gives the same state ends in that state. -/
theorem foldl_const_step {σ ι : Type} (f : σ → ι → σ) (c : σ) (hf : ∀ s a, f s a = c)
    (l : List ι) (hl : l ≠ []) (s : σ) : l.foldl f s = c := by
  induction l generalizing s with
  | nil => exact absurd rfl hl
  | cons a l ih =>
    cases l with
    | nil => exact hf s a
    | cons b m => exact ih (List.cons_ne_nil b m) (f s a)

/-- Two left folds over the same list whose steps commute with a map of the states. -/
theorem foldl_map_state {σ τ ι : Type} (φ : σ → τ) (f : σ → ι → σ) (g : τ → ι → τ)
    (h : ∀ s a, g (φ s) a = φ (f s a)) (l : List ι) (s : σ) :
    l.foldl g (φ s) = φ (l.foldl f s) := by
  induction l generalizing s with
  | nil => rfl
  | cons a l ih => rw [List.foldl_cons, List.foldl_cons, h, ih]

theorem subregionSumsChecked_eq_foldl (i j : Int) :
    subregionSumsChecked M sampler Lx Ly F i j
      = (List.range 9).foldl (fun s (a : Nat) => (List.range 9).foldl (fun s (b : Nat) =>
          sampleBodyChecked M sampler Lx Ly F
            (F.xf + (((-(j + sample_step) * F.scale : Int) : R) * F.si
              + (((i + sample_step) * F.scale : Int) : R) * F.co))
            (F.yf + ((((j + sample_step) * F.scale : Int) : R) * F.co
              + (((i + sample_step) * F.scale : Int) : R) * F.si))
            (i + (a : Int)) (j + (b : Int)) s) s) ⟨some 0, some 0, some 0, some 0⟩ := by
  unfold subregionSumsChecked
  dsimp only
  have h9 : ((9 : Nat) : Int) = 9 := rfl
  rw [← h9, forLoop_eq_foldl]
  congr 1
  funext s a
  rw [forLoop_eq_foldl]

/-- At rounded scale 0 the four sums of every subregion are NaN. -/
theorem subregionSumsChecked_of_scale_zero (hs : F.scale = 0) (i j : Int) :
    subregionSumsChecked M sampler Lx Ly F i j = ⟨none, none, none, none⟩ := by
  rw [subregionSumsChecked_eq_foldl]
  refine foldl_const_step _ _ (fun s a => ?_) _ (by decide) _
  exact foldl_const_step _ _
    (fun s b => sampleBodyChecked_of_scale_zero M sampler Lx Ly F hs i j _ _ s) _ (by decide) _

/-- At a non-zero rounded scale the checked sums are the sums of the field reading. -/
theorem subregionSumsChecked_of_scale_ne (hs : F.scale ≠ 0) (i j : Int) :
    subregionSumsChecked M sampler Lx Ly F i j
      = (subregionSums M sampler Lx Ly F i j).checked := by
  rw [subregionSumsChecked_eq_foldl, subregionSums_eq_foldl]
  have inner : ∀ (a : Nat) (s : Sums R),
      (List.range 9).foldl (fun s (b : Nat) =>
          sampleBodyChecked M sampler Lx Ly F
            (F.xf + (((-(j + sample_step) * F.scale : Int) : R) * F.si
              + (((i + sample_step) * F.scale : Int) : R) * F.co))
            (F.yf + ((((j + sample_step) * F.scale : Int) : R) * F.co
              + (((i + sample_step) * F.scale : Int) : R) * F.si))
            (i + (a : Int)) (j + (b : Int)) s) s.checked
        = ((List.range 9).foldl (fun s (b : Nat) =>
          sampleBody M sampler Lx Ly F
            (F.xf + (((-(j + sample_step) * F.scale : Int) : R) * F.si
              + (((i + sample_step) * F.scale : Int) : R) * F.co))
            (F.yf + ((((j + sample_step) * F.scale : Int) : R) * F.co
              + (((i + sample_step) * F.scale : Int) : R) * F.si))
            (i + (a : Int)) (j + (b : Int)) s) s).checked :=
    fun a s => foldl_map_state Sums.checked
      (fun s (b : Nat) => sampleBody M sampler Lx Ly F _ _ (i + (a : Int)) (j + (b : Int)) s)
      (fun s (b : Nat) =>
        sampleBodyChecked M sampler Lx Ly F _ _ (i + (a : Int)) (j + (b : Int)) s)
      (fun s b => sampleBodyChecked_of_scale_ne M sampler Lx Ly F hs _ _ _ _ s) _ s
  exact foldl_map_state Sums.checked
    (fun s (a : Nat) => (List.range 9).foldl (fun s (b : Nat) =>
      sampleBody M sampler Lx Ly F _ _ (i + (a : Int)) (j + (b : Int)) s) s)
    (fun s (a : Nat) => (List.range 9).foldl (fun s (b : Nat) =>
      sampleBodyChecked M sampler Lx Ly F _ _ (i + (a : Int)) (j + (b : Int)) s) s)
    (fun s a => inner a s) _ ⟨0, 0, 0, 0, []⟩

end checked
section checked

variable {R ImageT : Type} [LinearOrderedField R] (M : MathTrait R)
  (sampler : ImageT → R → R → R) (Lx Ly : ImageT) (F : Frame R)

theorem innerLoopChecked_exit (i : Int) (cx : R) (j : Int) (cy : R) (out : OutChecked R)
    (h : ¬ j < pattern_size) :
    innerLoopChecked M sampler Lx Ly F i cx j cy out = some out := by
  rw [innerLoopChecked, if_neg h]

/-- One pass through the body of the checked inner loop. -/
theorem innerLoopChecked_step (i : Int) (cx : R) (j : Int) (cy : R) (out : OutChecked R)
    (hj : j < pattern_size) (h : out.dcount + 4 ≤ 64) :
    innerLoopChecked M sampler Lx Ly F i cx j cy out
      = innerLoopChecked M sampler Lx Ly F i cx (j - 4 + 9) (cy + 1)
          (afterSubregionChecked M sampler Lx Ly F i (j - 4) cx (cy + 1) out) := by
  have h0 : out.dcount < 64 := by omega
  have h1 : out.dcount + 1 < 64 := by omega
  have h2 : out.dcount + 1 + 1 < 64 := by omega
  have h3 : out.dcount + 1 + 1 + 1 < 64 := by omega
  have hst : ∀ a b c d : Option R,
      ((((out.store a).bind (fun o => o.store b)).bind (fun o => o.store c)).bind
          (fun o => o.store d))
        = some (OutChecked.mk (fun n =>
              if n.val = out.dcount + 3 then d
              else if n.val = out.dcount + 2 then c
              else if n.val = out.dcount + 1 then b
              else if n.val = out.dcount then a
              else out.desc n) (out.dcount + 4)) := by
    intro a b c d
    simp only [OutChecked.store, h0, h1, h2, h3, dite_true, Option.some_bind,
      Option.some.injEq, OutChecked.mk.injEq, and_true]
    funext n
    simp only [Function.update, Fin.ext_iff, eq_rec_constant, dite_eq_ite]
  rw [innerLoopChecked, if_pos hj]
  dsimp only
  rw [hst]
  rfl

/-- The checked inner loop started at `j = -8`, `cy = -0.5` returns after four passes. -/
theorem innerLoopChecked_run (i : Int) (cx : R) (out : OutChecked R)
    (h : out.dcount + 16 ≤ 64) :
    innerLoopChecked M sampler Lx Ly F i cx (-8) (-0.5 : R) out
      = some (afterRowChecked M sampler Lx Ly F i cx out) := by
  have c1 : (-0.5 : R) + 1 = 0.5 := by norm_num
  have c2 : (0.5 : R) + 1 = 1.5 := by norm_num
  have c3 : (1.5 : R) + 1 = 2.5 := by norm_num
  have c4 : (2.5 : R) + 1 = 3.5 := by norm_num
  have d1 : ∀ (j : Int) (cy : R) (o : OutChecked R),
      (afterSubregionChecked M sampler Lx Ly F i j cx cy o).dcount = o.dcount + 4 :=
    fun _ _ _ => rfl
  rw [innerLoopChecked_step M sampler Lx Ly F i cx (-8) _ out (by decide) (by omega), c1]
  rw [innerLoopChecked_step M sampler Lx Ly F i cx _ _ _ (by decide) (by rw [d1]; omega), c2]
  rw [innerLoopChecked_step M sampler Lx Ly F i cx _ _ _ (by decide)
    (by rw [d1, d1]; omega), c3]
  rw [innerLoopChecked_step M sampler Lx Ly F i cx _ _ _ (by decide)
    (by rw [d1, d1, d1]; omega), c4]
  rw [innerLoopChecked_exit M sampler Lx Ly F i cx _ _ _ (by decide)]
  rfl

theorem afterRowChecked_dcount (i : Int) (cx : R) (out : OutChecked R) :
    (afterRowChecked M sampler Lx Ly F i cx out).dcount = out.dcount + 16 := rfl

theorem outerLoopChecked_exit (i : Int) (cx : R) (out : OutChecked R)
    (h : ¬ i < pattern_size) : outerLoopChecked M sampler Lx Ly F i cx out = some out := by
  rw [outerLoopChecked, if_neg h]

theorem outerLoopChecked_step (i : Int) (cx : R) (out : OutChecked R) (hi : i < pattern_size)
    (h : out.dcount + 16 ≤ 64) :
    outerLoopChecked M sampler Lx Ly F i cx out
      = outerLoopChecked M sampler Lx Ly F (i - 4 + 9) (cx + 1)
          (afterRowChecked M sampler Lx Ly F (i - 4) (cx + 1) out) := by
  rw [outerLoopChecked, if_pos hi]
  dsimp only
  rw [innerLoopChecked_run M sampler Lx Ly F _ _ out h]

/-- The checked outer loop started at `i = -8`, `cx = -0.5` returns after four passes. -/
theorem outerLoopChecked_run (out : OutChecked R) (h : out.dcount = 0) :
    outerLoopChecked M sampler Lx Ly F (-8) (-0.5 : R) out
      = some (afterGridChecked M sampler Lx Ly F out) := by
  have c1 : (-0.5 : R) + 1 = 0.5 := by norm_num
  have c2 : (0.5 : R) + 1 = 1.5 := by norm_num
  have c3 : (1.5 : R) + 1 = 2.5 := by norm_num
  have c4 : (2.5 : R) + 1 = 3.5 := by norm_num
  rw [outerLoopChecked_step M sampler Lx Ly F (-8) _ out (by decide) (by omega), c1]
  rw [outerLoopChecked_step M sampler Lx Ly F _ _ _ (by decide)
    (by rw [afterRowChecked_dcount]; omega), c2]
  rw [outerLoopChecked_step M sampler Lx Ly F _ _ _ (by decide)
    (by rw [afterRowChecked_dcount, afterRowChecked_dcount]; omega), c3]
  rw [outerLoopChecked_step M sampler Lx Ly F _ _ _ (by decide)
    (by rw [afterRowChecked_dcount, afterRowChecked_dcount, afterRowChecked_dcount]; omega), c4]
  rw [outerLoopChecked_exit M sampler Lx Ly F _ _ _ (by decide)]
  rfl

/-- The checked loops always run to completion, with the closed form `afterGridChecked`. -/
theorem descriptorLoopsChecked_eq (id_octave : Nat) (ipt : PointFeature R)
    (desc : Fin 64 → Option R) :
    descriptorLoopsChecked M sampler Lx Ly id_octave ipt desc
      = some (afterGridChecked M sampler Lx Ly (keypointFrame M id_octave ipt) ⟨desc, 0⟩) :=
  outerLoopChecked_run M sampler Lx Ly _ _ rfl

/-- At rounded scale 0 a pass stores four NaN. -/
theorem afterSubregionChecked_of_scale_zero (hs : F.scale = 0) (i j : Int) (cx cy : R)
    (out : OutChecked R) (h : ∀ n : Fin 64, n.val < out.dcount → out.desc n = none)
    (n : Fin 64) (hn : n.val < (afterSubregionChecked M sampler Lx Ly F i j cx cy out).dcount) :
    (afterSubregionChecked M sampler Lx Ly F i j cx cy out).desc n = none := by
  have hn4 : n.val < out.dcount + 4 := hn
  simp only [afterSubregionChecked, subregionSumsChecked_of_scale_zero M sampler Lx Ly F hs,
    mulChecked, Option.none_bind]
  split_ifs
  · rfl
  · rfl
  · rfl
  · rfl
  · exact h n (by omega)

/-- At a non-zero rounded scale a pass of the checked loop stores the values of the field
reading. -/
theorem afterSubregionChecked_of_scale_ne (hs : F.scale ≠ 0) (i j : Int) (cx cy : R)
    (oc : OutChecked R) (o : Out R) (hd : oc.dcount = o.dcount)
    (h : ∀ n : Fin 64, n.val < o.dcount → oc.desc n = some (o.desc n)) :
    (afterSubregionChecked M sampler Lx Ly F i j cx cy oc).dcount
        = (afterSubregion M sampler Lx Ly F i j cx cy o).dcount ∧
      ∀ n : Fin 64, n.val < (afterSubregion M sampler Lx Ly F i j cx cy o).dcount →
        (afterSubregionChecked M sampler Lx Ly F i j cx cy oc).desc n
          = some ((afterSubregion M sampler Lx Ly F i j cx cy o).desc n) := by
  refine ⟨by show oc.dcount + 4 = o.dcount + 4; rw [hd], ?_⟩
  intro n hn
  have hn4 : n.val < o.dcount + 4 := hn
  simp only [afterSubregionChecked, afterSubregion, Out.stored4,
    subregionSumsChecked_of_scale_ne M sampler Lx Ly F hs, gaussianChecked_second, Sums.checked,
    mulChecked, Option.some_bind, Option.map_some', hd]
  split_ifs
  · rfl
  · rfl
  · rfl
  · rfl
  · exact h n (by omega)

/-- At rounded scale 0 the checked loops leave 64 NaN in `desc`. -/
theorem afterGridChecked_of_scale_zero (hs : F.scale = 0) (desc : Fin 64 → Option R)
    (n : Fin 64) : (afterGridChecked M sampler Lx Ly F ⟨desc, 0⟩).desc n = none := by
  have h0 : ∀ n : Fin 64, n.val < (⟨desc, 0⟩ : OutChecked R).dcount →
      (⟨desc, 0⟩ : OutChecked R).desc n = none := fun n hn => absurd hn (Nat.not_lt_zero _)
  have all : ∀ n : Fin 64,
      n.val < (afterGridChecked M sampler Lx Ly F ⟨desc, 0⟩).dcount →
        (afterGridChecked M sampler Lx Ly F ⟨desc, 0⟩).desc n = none := by
    unfold afterGridChecked afterRowChecked
    iterate 16 refine afterSubregionChecked_of_scale_zero M sampler Lx Ly F hs _ _ _ _ _ ?_
    exact h0
  exact all n n.isLt

/-- At a non-zero rounded scale the checked loops leave in `desc` the 64 real numbers of the
field reading, whatever the two buffers held before. -/
theorem afterGridChecked_of_scale_ne (hs : F.scale ≠ 0) (descC : Fin 64 → Option R)
    (desc : Fin 64 → R) (n : Fin 64) :
    (afterGridChecked M sampler Lx Ly F ⟨descC, 0⟩).desc n
      = some ((afterGrid M sampler Lx Ly F ⟨desc, 0, [], []⟩).desc n) := by
  have h0 : (⟨descC, 0⟩ : OutChecked R).dcount = (⟨desc, 0, [], []⟩ : Out R).dcount ∧
      ∀ n : Fin 64, n.val < (⟨desc, 0, [], []⟩ : Out R).dcount →
        (⟨descC, 0⟩ : OutChecked R).desc n = some ((⟨desc, 0, [], []⟩ : Out R).desc n) :=
    ⟨rfl, fun n hn => absurd hn (Nat.not_lt_zero _)⟩
  have step : ∀ (i j : Int) (cx cy : R) (oc : OutChecked R) (o : Out R),
      (oc.dcount = o.dcount ∧
        ∀ n : Fin 64, n.val < o.dcount → oc.desc n = some (o.desc n)) →
      ((afterSubregionChecked M sampler Lx Ly F i j cx cy oc).dcount
          = (afterSubregion M sampler Lx Ly F i j cx cy o).dcount ∧
        ∀ n : Fin 64, n.val < (afterSubregion M sampler Lx Ly F i j cx cy o).dcount →
          (afterSubregionChecked M sampler Lx Ly F i j cx cy oc).desc n
            = some ((afterSubregion M sampler Lx Ly F i j cx cy o).desc n)) :=
    fun i j cx cy oc o h =>
      afterSubregionChecked_of_scale_ne M sampler Lx Ly F hs i j cx cy oc o h.1 h.2
  have all : (afterGridChecked M sampler Lx Ly F ⟨descC, 0⟩).dcount
        = (afterGrid M sampler Lx Ly F ⟨desc, 0, [], []⟩).dcount ∧
      ∀ n : Fin 64, n.val < (afterGrid M sampler Lx Ly F ⟨desc, 0, [], []⟩).dcount →
        (afterGridChecked M sampler Lx Ly F ⟨descC, 0⟩).desc n
          = some ((afterGrid M sampler Lx Ly F ⟨desc, 0, [], []⟩).desc n) := by
    unfold afterGridChecked afterRowChecked afterGrid afterRow
    iterate 16 refine step _ _ _ _ _ _ ?_
    exact h0
  exact all.2 n n.isLt

end checked
section checked

variable {R ImageT : Type} [LinearOrderedField R] (M : MathTrait R)
  (sampler : ImageT → R → R → R) (Lx Ly : ImageT) (F : Frame R)

/-- The squared norm, as Eigen sums it, is the sum of the squares of the 64 entries. -/
theorem squaredNorm_eq_sum_sq (d : Fin 64 → R) : squaredNorm d = ∑ n : Fin 64, d n ^ 2 := by
  unfold squaredNorm
  exact Finset.sum_congr rfl (fun n _ => (sq (d n)).symm)

/-- The checked squared norm of a vector of real numbers is its squared norm. -/
theorem squaredNormChecked_some (d : Fin 64 → R) :
    squaredNormChecked (fun n => some (d n)) = some (squaredNorm d) := by
  have key : ∀ l : List (Fin 64),
      l.foldr (fun n acc => addChecked (mulChecked (some (d n)) (some (d n))) acc) (some 0)
        = some ((l.map (fun n => d n * d n)).sum) := by
    intro l
    induction l with
    | nil => rfl
    | cons a l ih => rw [List.foldr_cons, ih]; rfl
  unfold squaredNormChecked squaredNorm
  rw [key, Fin.sum_univ_def]

/-- The checked squared norm of a vector of NaN is NaN. -/
theorem squaredNormChecked_none (v : Fin 64 → Option R) (h : ∀ n, v n = none) :
    squaredNormChecked v = none := by
  have key : ∀ l : List (Fin 64), l ≠ [] →
      l.foldr (fun n acc => addChecked (mulChecked (v n) (v n)) acc) (some 0) = none := by
    intro l hl
    cases l with
    | nil => exact absurd rfl hl
    | cons a l => rw [List.foldr_cons, h a]; rfl
  exact key _ (List.ne_nil_of_length_pos (by rw [List.length_finRange]; decide))

/-- On a vector of real numbers the checked normalisation is the normalisation. -/
theorem normalizeChecked_some (sqrt : R → R) (d : Fin 64 → R) :
    normalizeChecked sqrt (fun n => some (d n)) = fun n => some (normalize sqrt d n) := by
  unfold normalizeChecked normalize
  rw [squaredNormChecked_some]
  dsimp only
  split_ifs
  · rfl
  · rfl

/-- A vector of NaN fails the guard of the normalisation and stays as it is. -/
theorem normalizeChecked_none (sqrt : R → R) (v : Fin 64 → Option R) (h : ∀ n, v n = none) :
    normalizeChecked sqrt v = fun _ => none := by
  unfold normalizeChecked
  rw [squaredNormChecked_none v h]
  exact funext h

/-- At a non-zero rounded scale the checked computation returns the 64 real numbers of the field
reading, whatever the output buffers held before. -/
theorem ComputeMSURFDescriptorChecked_of_scale_ne (sqrt : R → R) (id_octave : Nat)
    (ipt : PointFeature R) (descC : Fin 64 → Option R) (desc : Fin 64 → R)
    (hs : (keypointFrame M id_octave ipt).scale ≠ 0) :
    descriptorLoopsChecked M sampler Lx Ly id_octave ipt descC
        = some ⟨fun n => some ((afterGrid M sampler Lx Ly (keypointFrame M id_octave ipt)
            ⟨desc, 0, [], []⟩).desc n), 64⟩ ∧
      ComputeMSURFDescriptorChecked M sqrt sampler Lx Ly id_octave ipt descC
        = some (fun n => some (normalize sqrt (afterGrid M sampler Lx Ly
            (keypointFrame M id_octave ipt) ⟨desc, 0, [], []⟩).desc n)) := by
  have hl : descriptorLoopsChecked M sampler Lx Ly id_octave ipt descC
      = some ⟨fun n => some ((afterGrid M sampler Lx Ly (keypointFrame M id_octave ipt)
          ⟨desc, 0, [], []⟩).desc n), 64⟩ := by
    rw [descriptorLoopsChecked_eq]
    congr 1
    have hd : (afterGridChecked M sampler Lx Ly (keypointFrame M id_octave ipt)
        ⟨descC, 0⟩).dcount = 64 := rfl
    have hv := funext
      (afterGridChecked_of_scale_ne M sampler Lx Ly (keypointFrame M id_octave ipt) hs descC desc)
    cases hc : afterGridChecked M sampler Lx Ly (keypointFrame M id_octave ipt) ⟨descC, 0⟩ with
    | mk dsc cnt =>
      rw [hc] at hd hv
      simp only at hd hv
      rw [hd, hv]
  refine ⟨hl, ?_⟩
  unfold ComputeMSURFDescriptorChecked
  rw [hl, Option.map_some', normalizeChecked_some]

/-- At rounded scale 0 the checked computation returns 64 NaN, whatever the gradient fields, the
keypoint position and orientation, and the former content of the output buffer. -/
theorem ComputeMSURFDescriptorChecked_of_scale_zero (sqrt : R → R) (id_octave : Nat)
    (ipt : PointFeature R) (descC : Fin 64 → Option R)
    (hs : (keypointFrame M id_octave ipt).scale = 0) :
    descriptorLoopsChecked M sampler Lx Ly id_octave ipt descC = some ⟨fun _ => none, 64⟩ ∧
      ComputeMSURFDescriptorChecked M sqrt sampler Lx Ly id_octave ipt descC
        = some (fun _ => none) := by
  have hl : descriptorLoopsChecked M sampler Lx Ly id_octave ipt descC
      = some ⟨fun _ => none, 64⟩ := by
    rw [descriptorLoopsChecked_eq]
    congr 1
    have hd : (afterGridChecked M sampler Lx Ly (keypointFrame M id_octave ipt)
        ⟨descC, 0⟩).dcount = 64 := rfl
    have hv := funext
      (afterGridChecked_of_scale_zero M sampler Lx Ly (keypointFrame M id_octave ipt) hs descC)
    cases hc : afterGridChecked M sampler Lx Ly (keypointFrame M id_octave ipt) ⟨descC, 0⟩ with
    | mk dsc cnt =>
      rw [hc] at hd hv
      simp only at hd hv
      rw [hd, hv]
  refine ⟨hl, ?_⟩
  unfold ComputeMSURFDescriptorChecked
  rw [hl, Option.map_some', normalizeChecked_none sqrt _ (fun _ => rfl)]

end checked
/-- Two runs of a pass that agree below `dcount` agree below the new `dcount`: the pass
overwrites the four entries it is entered at. -/
theorem afterSubregion_agree {R ImageT : Type} [LinearOrderedField R] (M : MathTrait R)
    (sampler : ImageT → R → R → R) (Lx Ly : ImageT) (F : Frame R) (i j : Int) (cx cy : R)
    (o o' : Out R)
    (h : o.dcount = o'.dcount ∧ ∀ n : Fin 64, n.val < o.dcount → o.desc n = o'.desc n) :
    (afterSubregion M sampler Lx Ly F i j cx cy o).dcount
        = (afterSubregion M sampler Lx Ly F i j cx cy o').dcount ∧
      ∀ n : Fin 64, n.val < (afterSubregion M sampler Lx Ly F i j cx cy o).dcount →
        (afterSubregion M sampler Lx Ly F i j cx cy o).desc n
          = (afterSubregion M sampler Lx Ly F i j cx cy o').desc n := by
  obtain ⟨hd, hv⟩ := h
  refine ⟨by show o.dcount + 4 = o'.dcount + 4; rw [hd], ?_⟩
  intro n hn
  have hn4 : n.val < o.dcount + 4 := hn
  simp only [afterSubregion, Out.stored4, ← hd]
  split_ifs
  · rfl
  · rfl
  · rfl
  · rfl
  · exact hv n (by omega)

/-- The 64 entries left by the loops do not depend on what the buffer held before: every entry
is overwritten. -/
theorem afterGrid_desc_overwritten {R ImageT : Type} [LinearOrderedField R] (M : MathTrait R)
    (sampler : ImageT → R → R → R) (Lx Ly : ImageT) (F : Frame R) (desc desc' : Fin 64 → R) :
    (afterGrid M sampler Lx Ly F ⟨desc, 0, [], []⟩).desc
      = (afterGrid M sampler Lx Ly F ⟨desc', 0, [], []⟩).desc := by
  have h0 : (⟨desc, 0, [], []⟩ : Out R).dcount = (⟨desc', 0, [], []⟩ : Out R).dcount ∧
      ∀ n : Fin 64, n.val < (⟨desc, 0, [], []⟩ : Out R).dcount →
        (⟨desc, 0, [], []⟩ : Out R).desc n = (⟨desc', 0, [], []⟩ : Out R).desc n :=
    ⟨rfl, fun n hn => absurd hn (Nat.not_lt_zero _)⟩
  have all : (afterGrid M sampler Lx Ly F ⟨desc, 0, [], []⟩).dcount
        = (afterGrid M sampler Lx Ly F ⟨desc', 0, [], []⟩).dcount ∧
      ∀ n : Fin 64, n.val < (afterGrid M sampler Lx Ly F ⟨desc, 0, [], []⟩).dcount →
        (afterGrid M sampler Lx Ly F ⟨desc, 0, [], []⟩).desc n
          = (afterGrid M sampler Lx Ly F ⟨desc', 0, [], []⟩).desc n := by
    unfold afterGrid afterRow
    iterate 16 refine afterSubregion_agree M sampler Lx Ly F _ _ _ _ _ _ ?_
    exact h0
  exact funext (fun n => all.2 n n.isLt)

end feature

/-! ## The claims -/

namespace graph

/-- C1: on an undirected simple graph `List_Triplets` lists every triangle exactly once: each
ascending triple `u < v < w` with its three edges in the graph is held by exactly one index of
the result, and the length of the result is the number of triangles of the graph. -/
theorem List_Triplets_each_triangle_once (g : Graph) (hg : g.Simple) :
    (∀ u v w : Nat, u < v → v < w → g.hasEdge u v → g.hasEdge v w → g.hasEdge u w →
        ∃! n : Fin (List_Triplets g).2.length, (List_Triplets g).2.get n = ⟨u, v, w⟩) ∧
      (List_Triplets g).2.length = (triangles g).card := by
  have hnd := nodup_List_Triplets g hg
  constructor
  · intro u v w huv hvw h1 h2 h3
    have hmem : (⟨u, v, w⟩ : Triplet) ∈ (List_Triplets g).2 :=
      (mem_List_Triplets g _).mpr ⟨huv, hvw, h1, h2, h3⟩
    obtain ⟨n, hn⟩ := List.get_of_mem hmem
    refine ⟨n, hn, ?_⟩
    intro m hm
    exact (List.nodup_iff_injective_get.mp hnd) (hm.trans hn.symm)
  · rw [← toFinset_List_Triplets g hg, List.toFinset_card_of_nodup hnd]

/-- The complete graph on 4 nodes is simple and yields exactly the four triples `(0,1,2)`,
`(0,1,3)`, `(0,2,3)`, `(1,2,3)`, one per 3-subset, each at exactly one index. -/
theorem List_Triplets_each_triangle_once_witness :
    completeFour.Simple ∧
      (List_Triplets completeFour).2 = [⟨0, 1, 2⟩, ⟨0, 1, 3⟩, ⟨0, 2, 3⟩, ⟨1, 2, 3⟩] ∧
      (∃! n : Fin (List_Triplets completeFour).2.length,
        (List_Triplets completeFour).2.get n = ⟨0, 2, 3⟩) ∧
      (List_Triplets completeFour).2.length = (triangles completeFour).card ∧
      (triangles completeFour).card = 4 :=
  ⟨by decide, by decide,
    (List_Triplets_each_triangle_once completeFour (by decide)).1 0 2 3 (by decide) (by decide)
      (by decide) (by decide) (by decide),
    (List_Triplets_each_triangle_once completeFour (by decide)).2, by decide⟩

/-- C2: every triplet `(i, j, k)` returned by `List_Triplets` is ascending, `i < j < k`, and its
three edges `{i,j}`, `{j,k}`, `{i,k}` are edges of the graph; hence every node it mentions lies
on a triangle of the graph. -/
theorem List_Triplets_sound (g : Graph) (t : Triplet) (ht : t ∈ (List_Triplets g).2) :
    t.i < t.j ∧ t.j < t.k ∧ g.hasEdge t.i t.j ∧ g.hasEdge t.j t.k ∧ g.hasEdge t.i t.k ∧
      ∀ x : Nat, x = t.i ∨ x = t.j ∨ x = t.k →
        ∃ s : Triplet, isTriangle g s ∧ (x = s.i ∨ x = s.j ∨ x = s.k) := by
  have h := (mem_List_Triplets g t).mp ht
  exact ⟨h.1, h.2.1, h.2.2.1, h.2.2.2.1, h.2.2.2.2, fun x hx => ⟨t, h, hx⟩⟩

/-- For the nodes `0..3` with the edges `0-1`, `1-2`, `1-3`, `2-3` the result is exactly
`[(1,2,3)]`, and that triplet is sound. -/
theorem List_Triplets_sound_witness :
    List_Triplets tailedTriangle = (true, [⟨1, 2, 3⟩]) ∧
      (1 < 2 ∧ 2 < 3 ∧ tailedTriangle.hasEdge 1 2 ∧ tailedTriangle.hasEdge 2 3 ∧
        tailedTriangle.hasEdge 1 3) :=
  ⟨by decide,
    (List_Triplets_sound tailedTriangle ⟨1, 2, 3⟩ (by decide)).1,
    (List_Triplets_sound tailedTriangle ⟨1, 2, 3⟩ (by decide)).2.1,
    (List_Triplets_sound tailedTriangle ⟨1, 2, 3⟩ (by decide)).2.2.1,
    (List_Triplets_sound tailedTriangle ⟨1, 2, 3⟩ (by decide)).2.2.2.1,
    (List_Triplets_sound tailedTriangle ⟨1, 2, 3⟩ (by decide)).2.2.2.2.1⟩

/-- C3: the boolean returned by `List_Triplets` is true exactly when the graph has a triangle,
and exactly when the returned list is non-empty; on a triangle-free graph it returns false
together with the empty list. -/
theorem List_Triplets_found_iff (g : Graph) :
    ((List_Triplets g).1 = true ↔ ∃ t : Triplet, isTriangle g t) ∧
      ((List_Triplets g).1 = true ↔ (List_Triplets g).2 ≠ []) ∧
      ((¬ ∃ t : Triplet, isTriangle g t) → List_Triplets g = (false, [])) := by
  have hb : (List_Triplets g).1 = true ↔ (List_Triplets g).2 ≠ [] := by
    unfold List_Triplets
    simp [List.isEmpty_iff]
  have hne : (List_Triplets g).2 ≠ [] ↔ ∃ t : Triplet, isTriangle g t := by
    constructor
    · intro h
      obtain ⟨t, ht⟩ := List.exists_mem_of_ne_nil _ h
      exact ⟨t, (mem_List_Triplets g t).mp ht⟩
    · rintro ⟨t, ht⟩
      exact List.ne_nil_of_mem ((mem_List_Triplets g t).mpr ht)
  refine ⟨hb.trans hne, hb, ?_⟩
  intro h
  have hnil : (List_Triplets g).2 = [] := by
    by_contra hc
    exact h (hne.mp hc)
  have hfalse : (List_Triplets g).1 = false := by
    cases hv : (List_Triplets g).1
    · rfl
    · exact absurd (hb.mp hv) (fun hc => hc hnil)
  exact Prod.ext hfalse hnil

/-- The path `a-b-c` has no triangle, and `List_Triplets` returns false with an empty list. -/
theorem List_Triplets_found_iff_witness :
    (¬ ∃ t : Triplet, isTriangle pathGraph t) ∧ List_Triplets pathGraph = (false, []) :=
  have hno : ¬ ∃ t : Triplet, isTriangle pathGraph t := fun h =>
    absurd ((List_Triplets_found_iff pathGraph).1.mpr h) (by decide)
  ⟨hno, (List_Triplets_found_iff pathGraph).2.2 hno⟩

/-- C10: two calls of `List_Triplets` on the same unchanged graph, each starting from an empty
output list, return the same boolean and triplet lists with the same members. -/
theorem List_Triplets_deterministic (g : Graph) (first second : Bool × List Triplet)
    (h1 : first = List_Triplets g) (h2 : second = List_Triplets g) :
    first.1 = second.1 ∧ ∀ t : Triplet, t ∈ first.2 ↔ t ∈ second.2 := by
  subst h1 h2
  exact ⟨rfl, fun _ => Iff.rfl⟩

/-- On the first graph of `test_one_triplet` a first call that returned `(true, [(0,1,2)])`
agrees with a second call. -/
theorem List_Triplets_deterministic_witness :
    (true, [(⟨0, 1, 2⟩ : Triplet)]) = List_Triplets triangleGraph ∧
      true = (List_Triplets triangleGraph).1 ∧
      ∀ t : Triplet, t ∈ [(⟨0, 1, 2⟩ : Triplet)] ↔ t ∈ (List_Triplets triangleGraph).2 :=
  ⟨by decide,
    List_Triplets_deterministic triangleGraph (true, [⟨0, 1, 2⟩]) (List_Triplets triangleGraph)
      (by decide) rfl⟩

/-- C16: when two edge lists describe the same undirected graph, differing only in the order of
the insertions and in the order of the two endpoints within an insertion, `List_Triplets` returns
the same boolean and the same set of triplets; the two lists are even permutations of each
other. -/
theorem List_Triplets_edge_order (g h : Graph) (hs : g.sameEdges h) :
    (List_Triplets g).1 = (List_Triplets h).1 ∧
      (∀ t : Triplet, t ∈ (List_Triplets g).2 ↔ t ∈ (List_Triplets h).2) ∧
      (List_Triplets g).2.Perm (List_Triplets h).2 := by
  have hp := List_Triplets_perm_of_sameEdges g h hs
  refine ⟨?_, fun t => hp.mem_iff, hp⟩
  unfold List_Triplets
  dsimp only
  exact congrArg (fun b => !b) (isEmpty_eq_of_mem_iff _ _ (fun t => hp.mem_iff))

/-- The second graph of `test_two_triplet` against the same graph with its six edges inserted in
another order and three of them with swapped endpoints: both give the triangles `(0,1,3)` and
`(1,2,4)`. -/
theorem List_Triplets_edge_order_witness :
    bowTie.sameEdges bowTieShuffled ∧ bowTie.edges ≠ bowTieShuffled.edges ∧
      (List_Triplets bowTie).1 = (List_Triplets bowTieShuffled).1 ∧
      (∀ t : Triplet, t ∈ (List_Triplets bowTie).2 ↔ t ∈ (List_Triplets bowTieShuffled).2) ∧
      List_Triplets bowTie = (true, [⟨0, 1, 3⟩, ⟨1, 2, 4⟩]) :=
  ⟨by decide, by decide,
    (List_Triplets_edge_order bowTie bowTieShuffled (by decide)).1,
    (List_Triplets_edge_order bowTie bowTieShuffled (by decide)).2.1, by decide⟩

end graph

namespace feature

/-- C7: the `Descriptor<unsigned char, 64>` overload of `ComputeMSURFDescriptor` returns with all
64 entries of its 8-bit output buffer as they were before the call; the float descriptor it
computes stays in the local `descFloat`. -/
theorem ComputeMSURFDescriptorUChar_output_unchanged {R ImageT : Type} [LinearOrderedField R]
    (M : MathTrait R) (sqrt : R → R) (sampler : ImageT → R → R → R) (Lx Ly : ImageT)
    (id_octave : Nat) (ipt : PointFeature R) (descFloat : Fin 64 → R)
    (desc : Fin 64 → Fin 256) :
    ∃ d : Fin 64 → R,
      ComputeMSURFDescriptor M sqrt sampler Lx Ly id_octave ipt descFloat = some d ∧
      ComputeMSURFDescriptorUChar M sqrt sampler Lx Ly id_octave ipt descFloat desc
        = some (desc, d) := by
  have ho := descriptorLoops_eq M sampler Lx Ly id_octave ipt descFloat
  have hd : ComputeMSURFDescriptor M sqrt sampler Lx Ly id_octave ipt descFloat
      = some (normalize sqrt
          (afterGrid M sampler Lx Ly (keypointFrame M id_octave ipt) ⟨descFloat, 0, [], []⟩).desc) := by
    unfold ComputeMSURFDescriptor
    rw [ho]
    rfl
  refine ⟨_, hd, ?_⟩
  unfold ComputeMSURFDescriptorUChar
  rw [hd]

/-- C8: for every input the two nested `while` loops of `ComputeMSURFDescriptor` terminate; their
body runs for exactly 16 subregions, 4 outer by 4 inner passes with the lattice origins `-12`,
`-7`, `-2`, `3`; each subregion evaluates exactly the 81 sample points of its 9 x 9 lattice, which
makes 1296 sample points per call. -/
theorem ComputeMSURFDescriptor_workload {R ImageT : Type} [LinearOrderedField R] (M : MathTrait R)
    (sampler : ImageT → R → R → R) (Lx Ly : ImageT) (id_octave : Nat) (ipt : PointFeature R)
    (desc : Fin 64 → R) :
    ∃ o : Out R, descriptorLoops M sampler Lx Ly id_octave ipt desc = some o ∧
      o.visits.length = 16 ∧
      o.visits.map (fun v => (v.i, v.j))
        = [-12, -7, -2, 3].flatMap (fun i => [-12, -7, -2, 3].map (fun j => (i, j))) ∧
      o.visits.map (fun v => v.points) = o.visits.map (fun v => lattice v.i v.j) ∧
      o.visits.map (fun v => v.points.length) = List.replicate 16 81 ∧
      (o.visits.flatMap (fun v => v.points)).length = 1296 := by
  have ho := descriptorLoops_eq M sampler Lx Ly id_octave ipt desc
  have hv := afterGrid_visits M sampler Lx Ly (keypointFrame M id_octave ipt) desc
  have hlen : (afterGrid M sampler Lx Ly (keypointFrame M id_octave ipt)
      ⟨desc, 0, [], []⟩).visits.length = 16 := by
    have h := congrArg List.length hv
    simpa only [List.length_map, List.length_range] using h
  have hij : (afterGrid M sampler Lx Ly (keypointFrame M id_octave ipt)
      ⟨desc, 0, [], []⟩).visits.map (fun v => (v.i, v.j))
        = [-12, -7, -2, 3].flatMap (fun i => [-12, -7, -2, 3].map (fun j => (i, j))) := by
    have h := congrArg (List.map (fun q : Int × Int × Nat × List (Int × Int) => (q.1, q.2.1))) hv
    simp only [List.map_map, Function.comp_def] at h
    rw [h]
    decide
  have hpts : (afterGrid M sampler Lx Ly (keypointFrame M id_octave ipt)
      ⟨desc, 0, [], []⟩).visits.map (fun v => v.points)
        = (afterGrid M sampler Lx Ly (keypointFrame M id_octave ipt)
            ⟨desc, 0, [], []⟩).visits.map (fun v => lattice v.i v.j) := by
    have h1 := congrArg (List.map (fun q : Int × Int × Nat × List (Int × Int) => q.2.2.2)) hv
    have h2 := congrArg
      (List.map (fun q : Int × Int × Nat × List (Int × Int) => lattice q.1 q.2.1)) hv
    simp only [List.map_map, Function.comp_def] at h1 h2
    rw [h1, h2]
  have hcount : (afterGrid M sampler Lx Ly (keypointFrame M id_octave ipt)
      ⟨desc, 0, [], []⟩).visits.map (fun v => v.points.length) = List.replicate 16 81 := by
    have h := congrArg (List.map List.length) hpts
    simp only [List.map_map, Function.comp_def, lattice_length] at h
    rw [h, List.map_const', hlen]
  refine ⟨_, ho, hlen, hij, hpts, hcount, ?_⟩
  have hsum : ((afterGrid M sampler Lx Ly (keypointFrame M id_octave ipt)
      ⟨desc, 0, [], []⟩).visits.flatMap (fun v => v.points)).length
        = ((afterGrid M sampler Lx Ly (keypointFrame M id_octave ipt)
            ⟨desc, 0, [], []⟩).visits.map (fun v => v.points.length)).sum := by
    rw [List.length_flatMap]
    rfl
  rw [hsum, hcount]
  rfl

/-- C9: over the reals, with `MathTrait`'s `cos` and `sin` the real cosine and sine,
`ComputeMSURFDescriptor` returns the same vector for a keypoint and for the same keypoint with
its orientation increased by `2 π`; more generally two orientations with the same cosine and the
same sine give the same result. -/
theorem ComputeMSURFDescriptor_orientation {ImageT : Type} (M : MathTrait ℝ) (sqrt : ℝ → ℝ)
    (sampler : ImageT → ℝ → ℝ → ℝ) (Lx Ly : ImageT) (id_octave : Nat) (ipt : PointFeature ℝ)
    (desc : Fin 64 → ℝ) (hcos : M.cos = Real.cos) (hsin : M.sin = Real.sin) :
    ComputeMSURFDescriptor M sqrt sampler Lx Ly id_octave
        { ipt with orientation := ipt.orientation + 2 * Real.pi } desc
      = ComputeMSURFDescriptor M sqrt sampler Lx Ly id_octave ipt desc ∧
    ∀ a b : ℝ, Real.cos a = Real.cos b → Real.sin a = Real.sin b →
      ComputeMSURFDescriptor M sqrt sampler Lx Ly id_octave { ipt with orientation := a } desc
        = ComputeMSURFDescriptor M sqrt sampler Lx Ly id_octave
            { ipt with orientation := b } desc := by
  have key : ∀ a b : ℝ, Real.cos a = Real.cos b → Real.sin a = Real.sin b →
      ComputeMSURFDescriptor M sqrt sampler Lx Ly id_octave { ipt with orientation := a } desc
        = ComputeMSURFDescriptor M sqrt sampler Lx Ly id_octave
            { ipt with orientation := b } desc := by
    intro a b hc hs
    unfold ComputeMSURFDescriptor descriptorLoops
    rw [keypointFrame_orientation M id_octave ipt a b (by rw [hcos]; exact hc)
      (by rw [hsin]; exact hs)]
  exact ⟨key _ _ (Real.cos_add_two_pi _) (Real.sin_add_two_pi _), key⟩

/-- A keypoint at `(3, 4)` with scale 2 and orientation 1, against the same keypoint with
orientation `1 + 2 π`, on the gradient fields `Lx = row`, `Ly = column`. -/
theorem ComputeMSURFDescriptor_orientation_witness :
    ComputeMSURFDescriptor ⟨Real.exp, Real.cos, Real.sin, fun x => |x|, fun x => round x⟩
        Real.sqrt (fun (img : ℝ → ℝ → ℝ) r c => img r c) (fun r _ => r) (fun _ c => c) 1
        ⟨3, 4, 2, 1 + 2 * Real.pi⟩ (fun _ => 0)
      = ComputeMSURFDescriptor ⟨Real.exp, Real.cos, Real.sin, fun x => |x|, fun x => round x⟩
        Real.sqrt (fun (img : ℝ → ℝ → ℝ) r c => img r c) (fun r _ => r) (fun _ c => c) 1
        ⟨3, 4, 2, 1⟩ (fun _ => 0) :=
  (ComputeMSURFDescriptor_orientation
    ⟨Real.exp, Real.cos, Real.sin, fun x => |x|, fun x => round x⟩ Real.sqrt
    (fun (img : ℝ → ℝ → ℝ) r c => img r c) (fun r _ => r) (fun _ c => c) 1 ⟨3, 4, 2, 1⟩
    (fun _ => 0) rfl rfl).1


/-- C12 as stated fails: for the first subregion (lattice origin `(-12, -12)`), scale 1,
orientation 0 and a keypoint at the origin, the centre indices are `(-7, -7)`, not the lattice
midpoint `(-8, -8)`, and `(xs, ys) = (-7, -7)` is not the sample position `(-8, -8)` of the
midpoint. -/
theorem ComputeMSURFDescriptor_centre_counterexample :
    (-12 : Int) + sample_step ≠ -12 + 4 ∧
      (lattice (-12) (-12))[40]? = some (-12 + 4, -12 + 4) ∧
      centreX (⟨1, 0, 0, 1, 0⟩ : Frame ℚ) (-12) (-12) = -7 ∧
      centreY (⟨1, 0, 0, 1, 0⟩ : Frame ℚ) (-12) (-12) = -7 ∧
      sampleX (⟨1, 0, 0, 1, 0⟩ : Frame ℚ) (-12 + 4) (-12 + 4) = -8 ∧
      sampleY (⟨1, 0, 0, 1, 0⟩ : Frame ℚ) (-12 + 4) (-12 + 4) = -8 ∧
      centreX (⟨1, 0, 0, 1, 0⟩ : Frame ℚ) (-12) (-12)
        ≠ sampleX (⟨1, 0, 0, 1, 0⟩ : Frame ℚ) (-12 + 4) (-12 + 4) := by
  refine ⟨by decide, rfl, ?_, ?_, ?_, ?_, ?_⟩ <;>
    norm_num [centreX, centreY, sampleX, sampleY, sample_step]

/-- C12, amended: for every subregion the point `(xs, ys)` on which the first Gaussian is centred
is the sample position of the lattice indices `(ky, kx) = (i + 5, j + 5)`, which belong to the
9 x 9 lattice and lie one step past its midpoint `(i + 4, j + 4)` in each direction. -/
theorem ComputeMSURFDescriptor_centre {R ImageT : Type} [LinearOrderedField R]
    (M : MathTrait R) (sampler : ImageT → R → R → R) (Lx Ly : ImageT) (F : Frame R)
    (i j : Int) :
    subregionSums M sampler Lx Ly F i j
        = (List.range 9).foldl (fun s (a : Nat) => (List.range 9).foldl (fun s (b : Nat) =>
            sampleBody M sampler Lx Ly F (centreX F i j) (centreY F i j)
              (i + (a : Int)) (j + (b : Int)) s) s) ⟨0, 0, 0, 0, []⟩ ∧
      i + sample_step = i + 5 ∧ j + sample_step = j + 5 ∧
      centreX F i j = sampleX F (i + 5) (j + 5) ∧
      centreY F i j = sampleY F (i + 5) (j + 5) ∧
      firstGaussian M F i j (i + 5) (j + 5) = M.exp 0 ∧
      (i + 5, j + 5) ∈ lattice i j ∧
      (lattice i j)[40]? = some (i + 4, j + 4) :=
  ⟨subregionSums_eq_foldl_centre M sampler Lx Ly F i j, rfl, rfl, (centre_eq_sample F i j).1,
    (centre_eq_sample F i j).2, firstGaussian_centre M F i j, mem_lattice_centre i j,
    lattice_midpoint i j⟩

/-- C13 as stated fails: for a keypoint at `(3, 4)` with scale 2 and orientation 1 the lattice
origins taken by the outer loop are `-12, -7, -2, 3`, not the stride-9 values
`-12, -3, 6, 15`. -/
theorem ComputeMSURFDescriptor_origins_counterexample :
    ∃ o : Out ℝ,
      descriptorLoops ⟨Real.exp, Real.cos, Real.sin, fun x => |x|, fun x => round x⟩
        (fun (img : ℝ → ℝ → ℝ) r c => img r c) (fun r _ => r) (fun _ c => c) 1
        ⟨3, 4, 2, 1⟩ (fun _ => 0) = some o ∧
      (o.visits.map (fun v => v.i)).dedup = [-12, -7, -2, 3] ∧
      (o.visits.map (fun v => v.i)).dedup
        ≠ (List.range 4).map (fun n => -12 + 9 * (n : Int)) := by
  have h := congrArg (List.map (fun q : Int × Int => q.1))
    (afterGrid_origins
      (⟨Real.exp, Real.cos, Real.sin, fun x => |x|, fun x => round x⟩ : MathTrait ℝ)
      (fun (img : ℝ → ℝ → ℝ) r c => img r c) (fun r _ => r) (fun _ c => c)
      (keypointFrame ⟨Real.exp, Real.cos, Real.sin, fun x => |x|, fun x => round x⟩ 1
        ⟨3, 4, 2, 1⟩) (fun _ => 0))
  simp only [List.map_map, Function.comp_def] at h
  refine ⟨_, descriptorLoops_eq _ _ _ _ _ _ _, ?_, ?_⟩
  · rw [h]
    decide
  · rw [h]
    decide

/-- C13, amended: the lattice start offsets taken by each of the two nested loops are the 4
values `-12, -7, -2, 3`: they start at `-12` with stride 5 between consecutive subregions, and
each subregion spans a 9 x 9 lattice of 81 samples. -/
theorem ComputeMSURFDescriptor_origins {R ImageT : Type} [LinearOrderedField R]
    (M : MathTrait R) (sampler : ImageT → R → R → R) (Lx Ly : ImageT) (id_octave : Nat)
    (ipt : PointFeature R) (desc : Fin 64 → R) :
    ∃ o : Out R, descriptorLoops M sampler Lx Ly id_octave ipt desc = some o ∧
      (o.visits.map (fun v => v.i)).dedup = (List.range 4).map (fun n => -12 + 5 * (n : Int)) ∧
      (o.visits.map (fun v => v.j)).dedup = (List.range 4).map (fun n => -12 + 5 * (n : Int)) ∧
      o.visits.map (fun v => (v.i, v.j))
        = (List.range 4).flatMap (fun r => (List.range 4).map
            (fun c => (-12 + 5 * (r : Int), -12 + 5 * (c : Int)))) ∧
      o.visits.map (fun v => v.points) = o.visits.map (fun v => lattice v.i v.j) ∧
      o.visits.map (fun v => v.points.length) = o.visits.map (fun _ => 81) := by
  have hij := afterGrid_origins M sampler Lx Ly (keypointFrame M id_octave ipt) desc
  have hpts := afterGrid_points M sampler Lx Ly (keypointFrame M id_octave ipt) desc
  have hi := congrArg (List.map (fun q : Int × Int => q.1)) hij
  have hj := congrArg (List.map (fun q : Int × Int => q.2)) hij
  simp only [List.map_map, Function.comp_def] at hi hj
  refine ⟨_, descriptorLoops_eq M sampler Lx Ly id_octave ipt desc, ?_, ?_, ?_, hpts, ?_⟩
  · rw [hi]
    decide
  · rw [hj]
    decide
  · rw [hij]
    decide
  · have h := congrArg (List.map List.length) hpts
    simpa only [List.map_map, Function.comp_def, lattice_length] using h

/-- C14: the index-stepping `while` loops of `ComputeMSURFDescriptor` compute the same descriptor
as the explicit double loop over the subregion row `r` and column `c` in `0..3`, in row-major
order, with lattice origins `i = 5 r - 12`, `j = 5 c - 12`, grid coordinates `cx = r + 0.5`,
`cy = c + 0.5` and output slice `4 (4 r + c) .. 4 (4 r + c) + 3`: the 64 entries agree before
the normalisation, and so does the returned descriptor. -/
theorem ComputeMSURFDescriptor_explicit_loops {R ImageT : Type} [LinearOrderedField R]
    (M : MathTrait R) (sqrt : R → R) (sampler : ImageT → R → R → R) (Lx Ly : ImageT)
    (id_octave : Nat) (ipt : PointFeature R) (desc : Fin 64 → R) :
    ∃ o : Out R, descriptorLoops M sampler Lx Ly id_octave ipt desc = some o ∧
      o.desc = explicitLoops M sampler Lx Ly (keypointFrame M id_octave ipt) desc ∧
      ComputeMSURFDescriptor M sqrt sampler Lx Ly id_octave ipt desc
        = some (explicitDescriptor M sqrt sampler Lx Ly id_octave ipt desc) := by
  have ho := descriptorLoops_eq M sampler Lx Ly id_octave ipt desc
  have hd := afterGrid_desc_explicit M sampler Lx Ly (keypointFrame M id_octave ipt) desc
  refine ⟨_, ho, hd, ?_⟩
  unfold ComputeMSURFDescriptor explicitDescriptor
  rw [ho, Option.map_some', hd]

/-- C15: for the subregion in grid row `r` and column `c` (`r`, `c` in `0..3`, visited as number
`4 r + c`) the second Gaussian is evaluated at the offset `(cx - 2, cy - 2) = (r - 1.5, c - 1.5)`
and weights the four stored values; the weight is a function of the squared distance
`(r - 1.5)^2 + (c - 1.5)^2` and is the same for `(r, c)`, `(3 - r, c)`, `(r, 3 - c)` and
`(c, r)`. -/
theorem ComputeMSURFDescriptor_subregion_weight {R ImageT : Type} [LinearOrderedField R]
    (M : MathTrait R) (sampler : ImageT → R → R → R) (Lx Ly : ImageT) (id_octave : Nat)
    (ipt : PointFeature R) (desc : Fin 64 → R) :
    ∃ o : Out R, descriptorLoops M sampler Lx Ly id_octave ipt desc = some o ∧
      o.visits.map (fun v => (v.cx - 2, v.cy - 2))
        = (List.range 16).map
            (fun t => (((t / 4 : Nat) : R) - 1.5, ((t % 4 : Nat) : R) - 1.5)) ∧
      o.visits.map (fun v => o.slice v)
        = o.visits.map (fun v =>
            [some ((subregionSums M sampler Lx Ly (keypointFrame M id_octave ipt) v.i v.j).dx
                * gaussian M (v.cx - 2) (v.cy - 2) (1.5 : R)),
              some ((subregionSums M sampler Lx Ly (keypointFrame M id_octave ipt) v.i v.j).dy
                * gaussian M (v.cx - 2) (v.cy - 2) (1.5 : R)),
              some ((subregionSums M sampler Lx Ly (keypointFrame M id_octave ipt) v.i v.j).mdx
                * gaussian M (v.cx - 2) (v.cy - 2) (1.5 : R)),
              some ((subregionSums M sampler Lx Ly (keypointFrame M id_octave ipt) v.i v.j).mdy
                * gaussian M (v.cx - 2) (v.cy - 2) (1.5 : R))]) ∧
      ∀ r c : Fin 4,
        gaussian M ((r.val : R) - 1.5) ((c.val : R) - 1.5) (1.5 : R)
            = M.exp (-(((r.val : R) - 1.5) ^ 2 + ((c.val : R) - 1.5) ^ 2) / 4.5) ∧
          gaussian M (((3 - r.val : Nat) : R) - 1.5) ((c.val : R) - 1.5) (1.5 : R)
            = gaussian M ((r.val : R) - 1.5) ((c.val : R) - 1.5) (1.5 : R) ∧
          gaussian M ((r.val : R) - 1.5) (((3 - c.val : Nat) : R) - 1.5) (1.5 : R)
            = gaussian M ((r.val : R) - 1.5) ((c.val : R) - 1.5) (1.5 : R) ∧
          gaussian M ((c.val : R) - 1.5) ((r.val : R) - 1.5) (1.5 : R)
            = gaussian M ((r.val : R) - 1.5) ((c.val : R) - 1.5) (1.5 : R) := by
  refine ⟨_, descriptorLoops_eq M sampler Lx Ly id_octave ipt desc, ?_, ?_, ?_⟩
  · have h := congrArg (List.map (fun q : R × R => (q.1 - 2, q.2 - 2)))
      (afterGrid_coords M sampler Lx Ly (keypointFrame M id_octave ipt) desc)
    simp only [List.map_map, Function.comp_def] at h
    rw [h]
    refine List.map_congr_left (fun t _ => ?_)
    refine Prod.ext ?_ ?_
    · show ((t / 4 : Nat) : R) + 0.5 - 2 = ((t / 4 : Nat) : R) - 1.5
      norm_num
      ring
    · show ((t % 4 : Nat) : R) + 0.5 - 2 = ((t % 4 : Nat) : R) - 1.5
      norm_num
      ring
  · exact List.map_congr_left (fun v hv => afterGrid_slices M sampler Lx Ly _ desc v hv)
  · intro r c
    have hr : ((3 - r.val : Nat) : R) = 3 - (r.val : R) :=
      Nat.cast_sub (Nat.le_of_lt_succ r.isLt)
    have hc : ((3 - c.val : Nat) : R) = 3 - (c.val : R) :=
      Nat.cast_sub (Nat.le_of_lt_succ c.isLt)
    refine ⟨gaussian_second M _ _, ?_, ?_, ?_⟩
    · rw [gaussian_second, gaussian_second, hr]
      congr 2
      norm_num
      ring
    · rw [gaussian_second, gaussian_second, hc]
      congr 2
      norm_num
      ring
    · rw [gaussian_second, gaussian_second, add_comm]

/-- C6: for every input the loops of `ComputeMSURFDescriptor` run to completion without a store
outside the descriptor; the stores go to the indices `0, 1, ..., 63`, each once and in increasing
order; the `t`-th visited subregion enters with `dcount = 4 t` and stores to `4 t .. 4 t + 3`,
where `desc` then holds the four values computed for that subregion; `dcount` is 64 when the
loops end, and all 64 entries have been overwritten: `desc` does not depend on what the buffer
held before the call. The same holds when the division in `gaussian` is checked: the loops end
with `dcount = 64` in one state whatever the buffer held, also at rounded scale 0. -/
theorem ComputeMSURFDescriptor_writes {R ImageT : Type} [LinearOrderedField R] (M : MathTrait R)
    (sqrt : R → R) (sampler : ImageT → R → R → R) (Lx Ly : ImageT) (id_octave : Nat)
    (ipt : PointFeature R) (desc : Fin 64 → R) :
    ∃ o : Out R, descriptorLoops M sampler Lx Ly id_octave ipt desc = some o ∧
      (ComputeMSURFDescriptor M sqrt sampler Lx Ly id_octave ipt desc).isSome = true ∧
      o.writes = List.range 64 ∧
      o.writes.all (fun w => decide (w < 64)) = true ∧
      o.visits.map (fun v => v.dcount) = (List.range 16).map (fun t => 4 * t) ∧
      o.writes = o.visits.flatMap
        (fun v => [v.dcount, v.dcount + 1, v.dcount + 2, v.dcount + 3]) ∧
      o.dcount = 64 ∧
      o.visits.map (fun v =>
          [o.read v.dcount, o.read (v.dcount + 1), o.read (v.dcount + 2), o.read (v.dcount + 3)])
        = o.visits.map (fun v =>
          [some ((subregionSums M sampler Lx Ly (keypointFrame M id_octave ipt) v.i v.j).dx
              * gaussian M (v.cx - 2) (v.cy - 2) (1.5 : R)),
            some ((subregionSums M sampler Lx Ly (keypointFrame M id_octave ipt) v.i v.j).dy
              * gaussian M (v.cx - 2) (v.cy - 2) (1.5 : R)),
            some ((subregionSums M sampler Lx Ly (keypointFrame M id_octave ipt) v.i v.j).mdx
              * gaussian M (v.cx - 2) (v.cy - 2) (1.5 : R)),
            some ((subregionSums M sampler Lx Ly (keypointFrame M id_octave ipt) v.i v.j).mdy
              * gaussian M (v.cx - 2) (v.cy - 2) (1.5 : R))]) ∧
      (∀ desc' : Fin 64 → R, ∃ o' : Out R,
        descriptorLoops M sampler Lx Ly id_octave ipt desc' = some o' ∧ o'.desc = o.desc) ∧
      ∃ oc : OutChecked R, oc.dcount = 64 ∧ ∀ descC : Fin 64 → Option R,
        descriptorLoopsChecked M sampler Lx Ly id_octave ipt descC = some oc := by
  have ho := descriptorLoops_eq M sampler Lx Ly id_octave ipt desc
  refine ⟨_, ho, ?_, afterGrid_writes M sampler Lx Ly _ desc, ?_, ?_, ?_,
    afterGrid_dcount M sampler Lx Ly _ desc, ?_, ?_, ?_⟩
  · unfold ComputeMSURFDescriptor
    rw [ho]
    rfl
  · rw [afterGrid_writes]
    decide
  · have h := congrArg (List.map (fun q : Int × Int × Nat × List (Int × Int) => q.2.2.1))
      (afterGrid_visits M sampler Lx Ly (keypointFrame M id_octave ipt) desc)
    simpa only [List.map_map, Function.comp_def] using h
  · exact afterGrid_writes_visits M sampler Lx Ly _ desc
  · exact List.map_congr_left (fun v hv => afterGrid_slices M sampler Lx Ly _ desc v hv)
  · intro desc'
    exact ⟨_, descriptorLoops_eq M sampler Lx Ly id_octave ipt desc',
      afterGrid_desc_overwritten M sampler Lx Ly _ desc' desc⟩
  · by_cases hs : (keypointFrame M id_octave ipt).scale = 0
    · exact ⟨⟨fun _ => none, 64⟩, rfl, fun descC =>
        (ComputeMSURFDescriptorChecked_of_scale_zero M sampler Lx Ly sqrt id_octave ipt descC
          hs).1⟩
    · exact ⟨_, rfl, fun descC =>
        (ComputeMSURFDescriptorChecked_of_scale_ne M sampler Lx Ly sqrt id_octave ipt descC desc
          hs).1⟩
/-- C4 as stated fails: take the constant gradient fields `Lx = 1`, `Ly = 0` and a keypoint at
the origin with scale 1 on octave 2. The scale rounds to `round (1 / 4) = 0`, every first
Gaussian is `exp` of `-0 / 0`, and with that division checked the 64 accumulated values are all
NaN: none of them is zero, and the returned vector is 64 NaN, whose norm is not 1. -/
theorem ComputeMSURFDescriptor_unit_norm_counterexample :
    (keypointFrame ⟨Real.exp, Real.cos, Real.sin, fun x => |x|, fun x => round x⟩ 2
        (⟨0, 0, 1, 0⟩ : PointFeature ℝ)).scale = 0 ∧
      ∃ (oc : OutChecked ℝ) (dC : Fin 64 → Option ℝ),
        descriptorLoopsChecked ⟨Real.exp, Real.cos, Real.sin, fun x => |x|, fun x => round x⟩
          (fun (img : ℝ) _ _ => img) 1 0 2 ⟨0, 0, 1, 0⟩ (fun _ => some 0) = some oc ∧
        (∀ n, oc.desc n ≠ some 0) ∧
        ComputeMSURFDescriptorChecked
          ⟨Real.exp, Real.cos, Real.sin, fun x => |x|, fun x => round x⟩ Real.sqrt
          (fun (img : ℝ) _ _ => img) 1 0 2 ⟨0, 0, 1, 0⟩ (fun _ => some 0) = some dC ∧
        (∀ n, dC n = none) ∧
        (¬ ∃ d : Fin 64 → ℝ, (∀ n, dC n = some (d n)) ∧ Real.sqrt (∑ n : Fin 64, d n ^ 2) = 1) ∧
        squaredNormChecked dC ≠ some 1 := by
  have hs : (keypointFrame ⟨Real.exp, Real.cos, Real.sin, fun x => |x|, fun x => round x⟩ 2
      (⟨0, 0, 1, 0⟩ : PointFeature ℝ)).scale = 0 := by
    show round ((1 : ℝ) / ((1 <<< 2 : Nat) : ℝ)) = 0
    have h4 : ((1 <<< 2 : Nat) : ℝ) = 4 := by
      have : (1 <<< 2 : Nat) = 4 := by decide
      rw [this]
      norm_num
    rw [h4, round_eq, Int.floor_eq_iff]
    norm_num
  obtain ⟨h1, h2⟩ := ComputeMSURFDescriptorChecked_of_scale_zero
    (⟨Real.exp, Real.cos, Real.sin, fun x => |x|, fun x => round x⟩ : MathTrait ℝ)
    (fun (img : ℝ) _ _ => img) 1 0 Real.sqrt 2 ⟨0, 0, 1, 0⟩ (fun _ => some 0) hs
  refine ⟨hs, _, _, h1, fun n h => Option.noConfusion h, h2, fun _ => rfl, ?_, ?_⟩
  · rintro ⟨d, hd, _⟩
    exact Option.noConfusion (hd 0)
  · rw [squaredNormChecked_none _ (fun _ => rfl)]
    exact fun h => Option.noConfusion h

/-- C4, amended: for every input whose rounded scale is not 0 and whose 64 accumulated values are
not all zero, the descriptor returned by `ComputeMSURFDescriptor` over the reals has Euclidean
norm `sqrt (sum of the 64 squares)` exactly 1 and is a positive scalar multiple of the
un-normalised vector; at such an input the computation with the division checked returns the
same real numbers. -/
theorem ComputeMSURFDescriptor_unit_norm {ImageT : Type} (M : MathTrait ℝ)
    (sampler : ImageT → ℝ → ℝ → ℝ) (Lx Ly : ImageT) (id_octave : Nat) (ipt : PointFeature ℝ)
    (desc : Fin 64 → ℝ) (descC : Fin 64 → Option ℝ) (o : Out ℝ)
    (hs : M.round (ipt.scale / ((1 <<< id_octave : Nat) : ℝ)) ≠ 0)
    (ho : descriptorLoops M sampler Lx Ly id_octave ipt desc = some o)
    (hne : ∃ n, o.desc n ≠ 0) :
    ∃ d : Fin 64 → ℝ,
      ComputeMSURFDescriptor M Real.sqrt sampler Lx Ly id_octave ipt desc = some d ∧
      descriptorLoopsChecked M sampler Lx Ly id_octave ipt descC
        = some ⟨fun n => some (o.desc n), 64⟩ ∧
      ComputeMSURFDescriptorChecked M Real.sqrt sampler Lx Ly id_octave ipt descC
        = some (fun n => some (d n)) ∧
      Real.sqrt (∑ n : Fin 64, d n ^ 2) = 1 ∧
      ∃ c : ℝ, 0 < c ∧ ∀ n, d n = c * o.desc n := by
  obtain ⟨hn, h1⟩ := normalize_of_ne_zero o.desc hne
  have hso : o = afterGrid M sampler Lx Ly (keypointFrame M id_octave ipt) ⟨desc, 0, [], []⟩ :=
    Option.some.inj (ho.symm.trans (descriptorLoops_eq M sampler Lx Ly id_octave ipt desc))
  obtain ⟨c1, c2⟩ := ComputeMSURFDescriptorChecked_of_scale_ne M sampler Lx Ly Real.sqrt
    id_octave ipt descC desc hs
  rw [← hso] at c1 c2
  refine ⟨normalize Real.sqrt o.desc, ?_, c1, c2, ?_,
    (Real.sqrt (squaredNorm o.desc))⁻¹, ?_, ?_⟩
  · unfold ComputeMSURFDescriptor
    rw [ho]
    rfl
  · rw [← squaredNorm_eq_sum_sq, h1, Real.sqrt_one]
  · exact inv_pos.mpr (Real.sqrt_pos.mpr (squaredNorm_pos o.desc hne))
  · intro n
    rw [hn]
    exact div_eq_inv_mul _ _

/-- With the constant gradient fields `Lx = 1`, `Ly = 0`, sampled as they are, and a keypoint at
the origin with scale 1 on octave 0 and orientation 0, the scale rounds to 1, entry 1 of the
accumulated vector is positive, and the returned descriptor has norm 1. -/
theorem ComputeMSURFDescriptor_unit_norm_witness :
    round ((1 : ℝ) / ((1 <<< 0 : Nat) : ℝ)) ≠ 0 ∧
    ∃ (o : Out ℝ) (d : Fin 64 → ℝ),
      descriptorLoops ⟨Real.exp, Real.cos, Real.sin, fun x => |x|, fun x => round x⟩
        (fun (img : ℝ) _ _ => img) 1 0 0 ⟨0, 0, 1, 0⟩ (fun _ => 0) = some o ∧
      o.desc 1 ≠ 0 ∧
      ComputeMSURFDescriptor ⟨Real.exp, Real.cos, Real.sin, fun x => |x|, fun x => round x⟩
        Real.sqrt (fun (img : ℝ) _ _ => img) 1 0 0 ⟨0, 0, 1, 0⟩ (fun _ => 0) = some d ∧
      ComputeMSURFDescriptorChecked
        ⟨Real.exp, Real.cos, Real.sin, fun x => |x|, fun x => round x⟩
        Real.sqrt (fun (img : ℝ) _ _ => img) 1 0 0 ⟨0, 0, 1, 0⟩ (fun _ => none)
          = some (fun n => some (d n)) ∧
      Real.sqrt (∑ n : Fin 64, d n ^ 2) = 1 := by
  have hr : round ((1 : ℝ) / ((1 <<< 0 : Nat) : ℝ)) ≠ 0 := by
    have h1 : ((1 <<< 0 : Nat) : ℝ) = 1 := by
      have : (1 <<< 0 : Nat) = 1 := by decide
      rw [this]
      norm_num
    rw [h1, div_one, round_one]
    decide
  have ho := descriptorLoops_eq
    (⟨Real.exp, Real.cos, Real.sin, fun x => |x|, fun x => round x⟩ : MathTrait ℝ)
    (fun (img : ℝ) _ _ => img) 1 0 0 ⟨0, 0, 1, 0⟩ (fun _ => 0)
  have hpos : (afterGrid
      (⟨Real.exp, Real.cos, Real.sin, fun x => |x|, fun x => round x⟩ : MathTrait ℝ)
      (fun (img : ℝ) _ _ => img) 1 0
      (keypointFrame ⟨Real.exp, Real.cos, Real.sin, fun x => |x|, fun x => round x⟩ 0
        ⟨0, 0, 1, 0⟩) ⟨fun _ => 0, 0, [], []⟩).desc 1 ≠ 0 := by
    rw [afterGrid_desc_one]
    refine ne_of_gt (mul_pos (subregionSums_dy_pos _ _ _ _ _ _ _ (fun x => Real.exp_pos x) ?_)
      (Real.exp_pos _))
    intro y x
    simp [keypointFrame]
  obtain ⟨d, hd, _, hc, hnorm, _⟩ := ComputeMSURFDescriptor_unit_norm
    (⟨Real.exp, Real.cos, Real.sin, fun x => |x|, fun x => round x⟩ : MathTrait ℝ)
    (fun (img : ℝ) _ _ => img) 1 0 0 ⟨0, 0, 1, 0⟩ (fun _ => 0) (fun _ => none) _ hr ho
    ⟨1, hpos⟩
  exact ⟨hr, _, d, ho, hpos, hd, hc, hnorm⟩
/-- C19 as stated fails: take the constant gradient fields `Lx = 1`, `Ly = 0` and a keypoint at
the origin with scale 1 on octave 2, whose scale rounds to 0. With the division of the first
Gaussian checked the returned descriptor is 64 NaN, so entries 0 and 2 are not real numbers
`a`, `b` with `|a| ≤ b`, and entry 2 is not a real number `b ≥ 0`. -/
theorem ComputeMSURFDescriptor_abs_dominates_counterexample :
    round ((1 : ℝ) / ((1 <<< 2 : Nat) : ℝ)) = 0 ∧
      ∃ dC : Fin 64 → Option ℝ,
        ComputeMSURFDescriptorChecked
          ⟨Real.exp, Real.cos, Real.sin, fun x => |x|, fun x => round x⟩ Real.sqrt
          (fun (img : ℝ) _ _ => img) 1 0 2 ⟨0, 0, 1, 0⟩ (fun _ => some 0) = some dC ∧
        dC (slot 0 0) = none ∧ dC (slot 0 2) = none ∧
        (¬ ∃ a b : ℝ, dC (slot 0 0) = some a ∧ dC (slot 0 2) = some b ∧ |a| ≤ b) ∧
        ¬ ∃ b : ℝ, dC (slot 0 2) = some b ∧ 0 ≤ b := by
  have hs : round ((1 : ℝ) / ((1 <<< 2 : Nat) : ℝ)) = 0 := by
    have h4 : ((1 <<< 2 : Nat) : ℝ) = 4 := by
      have : (1 <<< 2 : Nat) = 4 := by decide
      rw [this]
      norm_num
    rw [h4, round_eq, Int.floor_eq_iff]
    norm_num
  have h2 := (ComputeMSURFDescriptorChecked_of_scale_zero
    (⟨Real.exp, Real.cos, Real.sin, fun x => |x|, fun x => round x⟩ : MathTrait ℝ)
    (fun (img : ℝ) _ _ => img) 1 0 Real.sqrt 2 ⟨0, 0, 1, 0⟩ (fun _ => some 0) hs).2
  refine ⟨hs, _, h2, rfl, rfl, ?_, ?_⟩
  · rintro ⟨a, b, ha, _⟩
    exact Option.noConfusion ha
  · rintro ⟨b, hb, _⟩
    exact Option.noConfusion hb

/-- C19, amended: over the reals, with a non-negative `exp` and `abs` the absolute value, for
every input whose rounded scale is not 0 the returned descriptor satisfies
`desc[4 t + 2] ≥ |desc[4 t]|` and `desc[4 t + 3] ≥ |desc[4 t + 1]|` for every subregion `t` in
`0..15`, hence `desc[4 t + 2] ≥ 0` and `desc[4 t + 3] ≥ 0`; the same holds for the 64 values
before the normalisation; at such an input the computation with the division checked returns
the same real numbers. -/
theorem ComputeMSURFDescriptor_abs_dominates {ImageT : Type} (M : MathTrait ℝ)
    (sampler : ImageT → ℝ → ℝ → ℝ) (Lx Ly : ImageT) (id_octave : Nat) (ipt : PointFeature ℝ)
    (desc : Fin 64 → ℝ) (descC : Fin 64 → Option ℝ)
    (hs : M.round (ipt.scale / ((1 <<< id_octave : Nat) : ℝ)) ≠ 0)
    (hexp : ∀ x, 0 ≤ M.exp x) (habs : ∀ x, M.abs x = |x|) :
    ∃ (o : Out ℝ) (d : Fin 64 → ℝ),
      descriptorLoops M sampler Lx Ly id_octave ipt desc = some o ∧
      ComputeMSURFDescriptor M Real.sqrt sampler Lx Ly id_octave ipt desc = some d ∧
      descriptorLoopsChecked M sampler Lx Ly id_octave ipt descC
        = some ⟨fun n => some (o.desc n), 64⟩ ∧
      ComputeMSURFDescriptorChecked M Real.sqrt sampler Lx Ly id_octave ipt descC
        = some (fun n => some (d n)) ∧
      ∀ t : Fin 16,
        |o.desc (slot t 0)| ≤ o.desc (slot t 2) ∧ |o.desc (slot t 1)| ≤ o.desc (slot t 3) ∧
          |d (slot t 0)| ≤ d (slot t 2) ∧ |d (slot t 1)| ≤ d (slot t 3) ∧
          0 ≤ d (slot t 2) ∧ 0 ≤ d (slot t 3) := by
  have ho := descriptorLoops_eq M sampler Lx Ly id_octave ipt desc
  obtain ⟨c1, c2⟩ := ComputeMSURFDescriptorChecked_of_scale_ne M sampler Lx Ly Real.sqrt
    id_octave ipt descC desc hs
  obtain ⟨c, hc, hn⟩ := normalize_scalar
    (afterGrid M sampler Lx Ly (keypointFrame M id_octave ipt) ⟨desc, 0, [], []⟩).desc
  refine ⟨_, normalize Real.sqrt
    (afterGrid M sampler Lx Ly (keypointFrame M id_octave ipt) ⟨desc, 0, [], []⟩).desc,
    ho, ?_, c1, c2, ?_⟩
  · unfold ComputeMSURFDescriptor
    rw [ho]
    rfl
  · intro t
    have h1 := afterGrid_dominates M sampler Lx Ly (keypointFrame M id_octave ipt) desc hexp habs
      (slot t 0) (slot t 2) (by show (4 * t.val + 0) % 4 < 2; omega) rfl
    have h2 := afterGrid_dominates M sampler Lx Ly (keypointFrame M id_octave ipt) desc hexp habs
      (slot t 1) (slot t 3) (by show (4 * t.val + 1) % 4 < 2; omega) rfl
    have k1 : |c * (afterGrid M sampler Lx Ly (keypointFrame M id_octave ipt)
          ⟨desc, 0, [], []⟩).desc (slot t 0)|
        ≤ c * (afterGrid M sampler Lx Ly (keypointFrame M id_octave ipt)
          ⟨desc, 0, [], []⟩).desc (slot t 2) := by
      rw [abs_mul, abs_of_pos hc]
      exact mul_le_mul_of_nonneg_left h1 hc.le
    have k2 : |c * (afterGrid M sampler Lx Ly (keypointFrame M id_octave ipt)
          ⟨desc, 0, [], []⟩).desc (slot t 1)|
        ≤ c * (afterGrid M sampler Lx Ly (keypointFrame M id_octave ipt)
          ⟨desc, 0, [], []⟩).desc (slot t 3) := by
      rw [abs_mul, abs_of_pos hc]
      exact mul_le_mul_of_nonneg_left h2 hc.le
    rw [hn, hn, hn, hn]
    exact ⟨h1, h2, k1, k2, (abs_nonneg _).trans k1, (abs_nonneg _).trans k2⟩

/-- The real exponential and absolute value, on the gradient fields `Lx = row`, `Ly = column`,
for a keypoint of scale 2 on octave 1, whose scale rounds to 1: entry 2 of the returned
descriptor is at least the absolute value of entry 0. -/
theorem ComputeMSURFDescriptor_abs_dominates_witness :
    round ((2 : ℝ) / ((1 <<< 1 : Nat) : ℝ)) ≠ 0 ∧ (∀ x : ℝ, 0 ≤ Real.exp x) ∧
      ∃ d : Fin 64 → ℝ,
        ComputeMSURFDescriptor ⟨Real.exp, Real.cos, Real.sin, fun x => |x|, fun x => round x⟩
          Real.sqrt (fun (img : ℝ → ℝ → ℝ) r c => img r c) (fun r _ => r) (fun _ c => c) 1
          ⟨3, 4, 2, 1⟩ (fun _ => 0) = some d ∧
        ComputeMSURFDescriptorChecked
          ⟨Real.exp, Real.cos, Real.sin, fun x => |x|, fun x => round x⟩
          Real.sqrt (fun (img : ℝ → ℝ → ℝ) r c => img r c) (fun r _ => r) (fun _ c => c) 1
          ⟨3, 4, 2, 1⟩ (fun _ => none) = some (fun n => some (d n)) ∧
        |d (slot 0 0)| ≤ d (slot 0 2) ∧ |d (slot 0 1)| ≤ d (slot 0 3) := by
  have hr : round ((2 : ℝ) / ((1 <<< 1 : Nat) : ℝ)) ≠ 0 := by
    have h1 : ((1 <<< 1 : Nat) : ℝ) = 2 := by
      have : (1 <<< 1 : Nat) = 2 := by decide
      rw [this]
      norm_num
    rw [h1, div_self (two_ne_zero), round_one]
    decide
  obtain ⟨_, d, _, hd, _, hc, h⟩ := ComputeMSURFDescriptor_abs_dominates
    (⟨Real.exp, Real.cos, Real.sin, fun x => |x|, fun x => round x⟩ : MathTrait ℝ)
    (fun (img : ℝ → ℝ → ℝ) r c => img r c) (fun r _ => r) (fun _ c => c) 1 ⟨3, 4, 2, 1⟩
    (fun _ => 0) (fun _ => none) hr (fun x => (Real.exp_pos x).le) (fun _ => rfl)
  exact ⟨hr, fun x => (Real.exp_pos x).le, d, hd, hc, (h 0).2.2.1, (h 0).2.2.2.1⟩
end feature

end aliceVision
